import Mathlib

/-!
Verification of the equation-balance engine of the chemistry-master app.

The embedding follows the TypeScript source:
* `parseFormula` from `src/utils.tsx` (formula string → element→count map,
  implemented there with a regex token scan and a stack of frames);
* `getCharge`, `handleCoefficientChange` and `checkAnswer` from
  `src/components/EquationBalancer.tsx`.

JavaScript data is modelled as follows: objects used as string-keyed maps
become insertion-ordered association lists; a JavaScript number that can be
`NaN` becomes `Option Int` (`none` = `NaN`); code that can throw a
`TypeError` returns `Except Unit`.
-/

namespace Chem

/-- One JS object used as an element→count map: insertion-ordered
association list (JS objects preserve insertion order for string keys). -/
abbrev Frame := List (String × Nat)

/-- The JS property read `f[el]`: first (and, for objects, only) match. -/
def lookupKey {α : Type} : List (String × α) → String → Option α
  | [], _ => none
  | p :: tl, el => if p.1 = el then some p.2 else lookupKey tl el

/-- The JS property write `f[el] = v`: overwrite in place when the key is
present (JS objects keep its position), else append. -/
def updateKey {α : Type} : List (String × α) → String → α → List (String × α)
  | [], el, v => [(el, v)]
  | p :: tl, el, v =>
    if p.1 = el then (el, v) :: tl else p :: updateKey tl el v

/-- `f[el] || 0` on a count frame (an absent key is `undefined`, falsy). -/
def natVal (f : Frame) (el : String) : Nat := (lookupKey f el).getD 0

/-- `current[element] = (current[element] || 0) + count`. -/
def addCount (f : Frame) (el : String) (n : Nat) : Frame :=
  updateKey f el (natVal f el + n)

/-- The `)` handler's merge loop: every entry of the popped frame is
multiplied by the group multiplier and summed into the enclosing frame. -/
def mergeScaled (outer inner : Frame) (mult : Nat) : Frame :=
  inner.foldl (fun acc p => addCount acc p.1 (p.2 * mult)) outer

/-- Tokens produced by the regex `([A-Z][a-z]*|e)(\d*)|(\()|(\))(\d*)`. -/
inductive Token where
  | elem (symbol : String) (count : Nat)
  | lpar
  | rpar (mult : Nat)
deriving DecidableEq, Repr

/-- Decimal value of a digit run (`parseInt` on a nonempty digit string). -/
def digitsToNat (cs : List Char) : Nat :=
  cs.foldl (fun acc c => 10 * acc + (c.toNat - '0'.toNat)) 0

/-- `parseInt(run || '1', 10)` for a digit run attached to a token. -/
def runCount (cs : List Char) : Nat :=
  if cs.isEmpty then 1 else digitsToNat cs

/-- The regex scan of `parseFormula`, fuelled so the recursion is
structural: at each position the alternatives `[A-Z][a-z]*` / `e` (with
trailing digit run), `(`, `)` (with trailing digit run) are tried;
characters matching none of them are skipped, exactly as `exec` advances
past non-matching spans. -/
def lexCharsF : Nat → List Char → List Token
  | 0, _ => []
  | _, [] => []
  | fuel + 1, c :: cs =>
    if c.isUpper then
      Token.elem (String.mk (c :: cs.takeWhile Char.isLower))
          (runCount ((cs.dropWhile Char.isLower).takeWhile Char.isDigit)) ::
        lexCharsF fuel ((cs.dropWhile Char.isLower).dropWhile Char.isDigit)
    else if c = 'e' then
      Token.elem "e" (runCount (cs.takeWhile Char.isDigit)) ::
        lexCharsF fuel (cs.dropWhile Char.isDigit)
    else if c = '(' then
      Token.lpar :: lexCharsF fuel cs
    else if c = ')' then
      Token.rpar (runCount (cs.takeWhile Char.isDigit)) ::
        lexCharsF fuel (cs.dropWhile Char.isDigit)
    else
      lexCharsF fuel cs

/-- The token stream of a cleaned formula; `cs.length` is always enough
fuel since every step consumes at least one character. -/
def lexChars (cs : List Char) : List Token := lexCharsF cs.length cs

/-- One iteration of the `while ((match = tokenRegex.exec(clean)))` loop.
The stack is kept top-first (JS pushes/pops at the array end; JS `stack[0]`
is the last entry of this list).  `Except.error` marks a thrown
`TypeError`: an element written into `stack[stack.length - 1]` when the
stack is empty, or a `)` that pops the base frame and then iterates a
nonempty entry list into `undefined`. -/
def processToken (stack : List Frame) : Token → Except Unit (List Frame)
  | .elem el n =>
    match stack with
    | [] => .error ()
    | top :: rest => .ok (addCount top el n :: rest)
  | .lpar => .ok ([] :: stack)
  | .rpar mult =>
    match stack with
    | [] => .ok []
    | [top] => if top = [] then .ok [] else .error ()
    | top :: next :: rest => .ok (mergeScaled next top mult :: rest)

/-- `clean`: everything before the first `^` (`formula.split('^')[0]`), with
every `.` removed (`clean.replace(/\./g, '')`). -/
def cleanChars (formula : String) : List Char :=
  (formula.data.takeWhile (fun c => c ≠ '^')).filter (fun c => c ≠ '.')

/-- `parseFormula` from `src/utils.tsx`.  `Except.error ()` is a thrown
`TypeError`; `.ok none` is the JS function returning `undefined`
(`return stack[0]` on an emptied stack); `.ok (some f)` is a normal map. -/
def parseFormula (formula : String) : Except Unit (Option Frame) := do
  let stack ← (lexChars (cleanChars formula)).foldlM processToken
    [([] : Frame)]
  pure stack.getLast?

/-- `getCharge`'s regex `/(\d*)([\+\-])/` applied to the charge segment:
scan for the first sign character; the digit magnitude is the maximal digit
run immediately before it (`1` when that run is empty).  `acc` holds the
scanned prefix in reverse. -/
def chargeScan (acc : List Char) : List Char → Option Int
  | [] => none
  | c :: tl =>
    if c = '+' ∨ c = '-' then
      let run := acc.takeWhile Char.isDigit
      let num : Int := if run.isEmpty then 1 else (digitsToNat run.reverse : Int)
      some (if c = '+' then num else -num)
    else
      chargeScan (c :: acc) tl

/-- The charge segment `formula.split('^')[1]`: the span between the first
`^` and the next `^` (or the end). -/
def chargeSeg (formula : String) : List Char :=
  ((formula.data.dropWhile (fun c => c ≠ '^')).drop 1).takeWhile
    (fun c => c ≠ '^')

/-- `getCharge` from `src/components/EquationBalancer.tsx`: with a `^`
present, the matched `sign * magnitude` (or `0` when the segment has no
sign); without one, `-1` for the bare electron notations and `0` else. -/
def getCharge (formula : String) : Int :=
  if formula.data.contains '^' then
    match chargeScan [] (chargeSeg formula) with
    | none => 0
    | some v => v
  else if formula = "e" ∨ formula = "e-" then -1
  else 0

/-! ### The balance checker of `EquationBalancer.tsx` -/

/-- A JS number that may be `NaN` (`none`). The reference coefficients and
all counts fit well inside the exactly-representable integer range of JS
doubles, so `Int` is the faithful integer model. -/
abbrev JsNum := Option Int

/-- JS `+` (NaN-propagating). -/
def jadd : JsNum → JsNum → JsNum
  | some a, some b => some (a + b)
  | _, _ => none

/-- JS `*` (NaN-propagating). -/
def jmul : JsNum → JsNum → JsNum
  | some a, some b => some (a * b)
  | _, _ => none

/-- JS `!==` on numbers: `NaN` is unequal to everything, itself included. -/
def jneq : JsNum → JsNum → Bool
  | some a, some b => decide (a ≠ b)
  | _, _ => true

/-- The maximal leading digit run as a number; `none` (`NaN`) when empty. -/
def jsNatScan (cs : List Char) : JsNum :=
  let run := cs.takeWhile Char.isDigit
  if run.isEmpty then none else some (digitsToNat run : Int)

/-- `parseInt(s, 10)`: skip leading whitespace, optional sign, then the
maximal leading digit run; `NaN` when that run is empty. -/
def jsParseInt (s : String) : JsNum :=
  match s.data.dropWhile Char.isWhitespace with
  | [] => none
  | c :: tl =>
    if c = '+' then jsNatScan tl
    else if c = '-' then
      match jsNatScan tl with
      | some n => some (-n)
      | none => none
    else jsNatScan (c :: tl)

/-- The `userCoefficients` React state: a JS object mapping term ids
(`"r-0"`, `"p-1"`, …) to the entered strings; `none` is an absent key. -/
abbrev UC := String → Option String

/-- `userCoefficients[key] || '1'`: absent (`undefined`) and the empty
string are falsy and fall back to `'1'`. -/
def resolveRaw (uc : UC) (key : String) : String :=
  match uc key with
  | none => "1"
  | some s => if s = "" then "1" else s

/-- `parseInt(userCoefficients[key] || '1', 10)`. -/
def coeffNum (uc : UC) (key : String) : JsNum := jsParseInt (resolveRaw uc key)

/-- One reactant or product entry (`types.ts`); the optional display name
plays no role in checking and is omitted. -/
structure EquationComponent where
  formula : String
  coefficient : Int
deriving DecidableEq, Repr

/-- A generated equation (`types.ts`); the difficulty tag plays no role in
checking and is omitted. -/
structure ChemicalEquation where
  reactants : List EquationComponent
  products : List EquationComponent
deriving DecidableEq, Repr

inductive Language where
  | ZH
  | EN
deriving DecidableEq, Repr

def Language.isZH : Language → Bool
  | .ZH => true
  | .EN => false

inductive EquationTopic where
  | METALS
  | ACIDS_BASES
  | FOSSIL_FUELS
  | EQUILIBRIUM
  | REDOX_HALF
  | REDOX_FULL
deriving DecidableEq, Repr

/-- `acc[el] || 0` on a `JsNum` count map: both an absent key (`undefined`)
and a stored `NaN` are falsy and read as `0`. -/
def cval (acc : List (String × JsNum)) (el : String) : Int :=
  match lookupKey acc el with
  | some (some x) => x
  | _ => 0

/-- `acc[el] = (acc[el] || 0) + v`. -/
def jsAccum (acc : List (String × JsNum)) (el : String) (v : JsNum) :
    List (String × JsNum) :=
  updateKey acc el (jadd (some (cval acc el)) v)

/-- The per-term atom accumulation of `checkAnswer`: every parsed entry is
scaled by the coefficient and added, except the pseudo-element `"e"`. -/
def accumAtoms (coeff : JsNum) (atoms : Frame) (counts : List (String × JsNum)) :
    List (String × JsNum) :=
  atoms.foldl
    (fun acc p =>
      if p.1 = "e" then acc
      else jsAccum acc p.1 (jmul (some (p.2 : Int)) coeff))
    counts

/-- One `forEach` body of `checkAnswer` (either side): resolve the
coefficient, parse the formula (a crash propagates — `Object.entries` of
`undefined` also throws), fold the atoms in, and add `coeff * getCharge`. -/
def sideStep (uc : UC) (pre : String)
    (acc : List (String × JsNum) × JsNum) (it : Nat × EquationComponent) :
    Except Unit (List (String × JsNum) × JsNum) := do
  let coeff := coeffNum uc (pre ++ "-" ++ toString it.1)
  let atoms ←
    match parseFormula it.2.formula with
    | .error _ => (.error () : Except Unit Frame)
    | .ok none => (.error () : Except Unit Frame)
    | .ok (some fr) => pure fr
  pure (accumAtoms coeff atoms acc.1,
    jadd acc.2 (jmul coeff (some (getCharge it.2.formula))))

/-- The whole `forEach` over one side, starting from `{}` and charge `0`. -/
def sideFold (uc : UC) (pre : String) (terms : List EquationComponent) :
    Except Unit (List (String × JsNum) × JsNum) :=
  terms.enum.foldlM (sideStep uc pre) ([], some 0)

/-- The balance data `checkAnswer` computes before branching. -/
structure BalanceState where
  rCounts : List (String × JsNum)
  pCounts : List (String × JsNum)
  chargeL : JsNum
  chargeR : JsNum
deriving Repr

/-- Atom and charge totals of both sides (`checkAnswer` lines 110–143). -/
def computeState (eq : ChemicalEquation) (uc : UC) : Except Unit BalanceState := do
  let r ← sideFold uc "r" eq.reactants
  let p ← sideFold uc "p" eq.products
  pure ⟨r.1, p.1, r.2, p.2⟩

/-- Helper for `dedupFirst`: drop every element already seen. -/
def dedupFirstAux (seen : List String) : List String → List String
  | [] => []
  | x :: tl =>
    if seen.contains x then dedupFirstAux seen tl
    else x :: dedupFirstAux (x :: seen) tl

/-- `Array.from(new Set(...))`: deduplicate keeping first occurrences. -/
def dedupFirst (l : List String) : List String := dedupFirstAux [] l

/-- The union scan order of `checkAnswer`: left-side keys first. -/
def allElements (st : BalanceState) : List String :=
  dedupFirst (st.rCounts.map (fun p => p.1) ++ st.pCounts.map (fun p => p.1))

/-- `rCounts[el] || 0` in the comparison loop. -/
def leftCount (st : BalanceState) (el : String) : Int := cval st.rCounts el

/-- `pCounts[el] || 0` in the comparison loop. -/
def rightCount (st : BalanceState) (el : String) : Int := cval st.pCounts el

/-- The `unbalancedDetails` list: every element of the union whose two
totals differ, with both totals. -/
def unbalancedTriples (st : BalanceState) : List (String × Int × Int) :=
  (allElements st).filterMap fun el =>
    let l := leftCount st el
    let r := rightCount st el
    if l ≠ r then some (el, l, r) else none

/-- The `unbalancedElementsList` (element names only). -/
def unbalancedEls (st : BalanceState) : List String :=
  (unbalancedTriples st).map (fun d => d.1)

/-- The formatted `unbalanced` entries `` `${el} (L:${left}, R:${right})` ``. -/
def unbalancedStrs (st : BalanceState) : List String :=
  (unbalancedTriples st).map fun d =>
    d.1 ++ " (L:" ++ toString d.2.1 ++ ", R:" ++ toString d.2.2 ++ ")"

/-- `${n > 0 ? '+' + n : n}`: positive charges get an explicit `+`. -/
def signedStr (n : JsNum) : String :=
  let shown := match n with
    | some x => toString x
    | none => "NaN"
  match n with
  | some x => if 0 < x then "+" ++ shown else shown
  | none => shown

/-- The charge-mismatch message body. -/
def chargeMsgCore (isZH : Bool) (l r : JsNum) : String :=
  if isZH then
    "電荷未平衡 (左: " ++ signedStr l ++ ", 右: " ++ signedStr r ++ ")"
  else
    "Charge unbalanced (Left: " ++ signedStr l ++ ", Right: " ++ signedStr r ++ ")"

/-- The topic strategy note appended to the charge-mismatch message; empty
for every topic other than the two redox ones. -/
def chargeGuide (topic : EquationTopic) (isZH : Bool) : String :=
  match topic with
  | .REDOX_HALF =>
    if isZH then
      "\n\n💡 提示：根據步驟 (b)，原子平衡後，請調整電子 (e⁻) 的數量來平衡電荷。"
    else
      "\n\n💡 Hint: According to Step (b), after atoms are balanced, adjust electrons (e⁻) to balance the charge."
  | .REDOX_FULL =>
    if isZH then
      "\n\n💡 提示：根據方法一的步驟 6，請添加 H⁺ (酸性介質) 來平衡電荷。"
    else
      "\n\n💡 Hint: According to Method 1 Step 6, add H⁺ (in acidic medium) to balance the charges."
  | _ => ""

/-- The full charge-mismatch hint. -/
def chargeHintMsg (st : BalanceState) (topic : EquationTopic) (isZH : Bool) :
    String :=
  chargeMsgCore isZH st.chargeL st.chargeR ++ chargeGuide topic isZH

/-- The balanced-but-not-simplest message. -/
def simplestMsg (isZH : Bool) : String :=
  if isZH then "原子與電荷已平衡，但請使用最簡整數比。"
  else "Balanced, but please use simplest whole number ratios."

/-- `isExactMatch`: every term's `parseInt(userCoefficients[id] || '1')`
strictly equals its reference coefficient. -/
def isExactMatch (eq : ChemicalEquation) (uc : UC) : Bool :=
  eq.reactants.enum.all
    (fun it => !jneq (coeffNum uc ("r-" ++ toString it.1)) (some it.2.coefficient)) &&
  eq.products.enum.all
    (fun it => !jneq (coeffNum uc ("p-" ++ toString it.1)) (some it.2.coefficient))

/-- The advice naming the first unbalanced non-O/H element, per topic. -/
def nonOHAdvice (topic : EquationTopic) (isZH : Bool) (el : String) : String :=
  match topic with
  | .REDOX_HALF =>
    if isZH then "💡 提示：根據步驟 (a)(i)，請先平衡 " ++ el ++ " 原子。"
    else "💡 Hint: According to Step (a)(i), balance " ++ el ++ " atoms first."
  | .REDOX_FULL =>
    if isZH then "💡 提示：根據方法一的步驟 4-5，請先平衡 O 和 H 以外的原子 (" ++ el ++ ")。"
    else "💡 Hint: According to Method 1 Steps 4-5, balance atoms other than O and H first (" ++ el ++ ")."
  | _ =>
    if isZH then "💡 提示：根據步驟 3，建議先平衡金屬或非金屬原子 (" ++ el ++ ")，最後才處理 H 和 O。"
    else "💡 Hint: According to Step 3, balance metal/non-metal atoms (" ++ el ++ ") first, leaving H and O for last."

/-- The oxygen-targeted advice per topic (for non-redox topics the source
has a single generic O/H note, produced here as well as by `hAdvice`). -/
def oAdvice (topic : EquationTopic) (isZH : Bool) : String :=
  match topic with
  | .REDOX_HALF =>
    if isZH then "💡 提示：根據步驟 (a)(ii)，其他原子已平衡。現在請調整 H₂O 的係數來平衡氧(O)原子。"
    else "💡 Hint: According to Step (a)(ii), others are balanced. Now adjust H₂O to balance Oxygen."
  | .REDOX_FULL =>
    if isZH then "💡 提示：根據方法一的步驟 7(a)，請添加 H₂O 以平衡 O 原子。"
    else "💡 Hint: According to Method 1 Step 7(a), add H₂O to balance O atoms."
  | _ =>
    if isZH then "💡 提示：根據步驟 3，其他原子已平衡。最後請檢查並平衡氫(H)和氧(O)原子。"
    else "💡 Hint: According to Step 3, other atoms are balanced. Finally, check and balance Hydrogen and Oxygen."

/-- The hydrogen-targeted advice per topic. -/
def hAdvice (topic : EquationTopic) (isZH : Bool) : String :=
  match topic with
  | .REDOX_HALF =>
    if isZH then "💡 提示：根據步驟 (a)(iii)，氧原子已平衡。現在請調整 H⁺ 的係數來平衡氫(H)原子。"
    else "💡 Hint: According to Step (a)(iii), Oxygen is balanced. Now adjust H⁺ to balance Hydrogen."
  | .REDOX_FULL =>
    if isZH then "💡 提示：根據方法一的步驟 7(b)，請檢查並確保 H 原子的數目是平衡的。"
    else "💡 Hint: According to Method 1 Step 7(b), check to make sure that the number of H atoms is balanced."
  | _ => oAdvice topic isZH

/-- The topic-specific advice selection of `checkAnswer` (lines 212–265).
`find` yields the first non-O/H element; JS truthiness makes an empty
string behave as no find.  The two redox topics test `includes('O')` then
`includes('H')`; every other topic tests `some(el => el O or H)` and emits
one generic note. -/
def adviceFor (topic : EquationTopic) (isZH : Bool) (els : List String) : String :=
  let rest :=
    match topic with
    | .REDOX_HALF =>
      if els.contains "O" then oAdvice topic isZH
      else if els.contains "H" then hAdvice topic isZH
      else ""
    | .REDOX_FULL =>
      if els.contains "O" then oAdvice topic isZH
      else if els.contains "H" then hAdvice topic isZH
      else ""
    | _ =>
      if els.any (fun el => el == "O" || el == "H") then oAdvice topic isZH
      else ""
  match els.find? (fun el => !(el == "O") && !(el == "H")) with
  | some el => if el = "" then rest else nonOHAdvice topic isZH el
  | none => rest

/-- The odd/even fallback hint (lines 268–279). -/
def oddEvenAdvice (isZH : Bool) (details : List (String × Int × Int)) : String :=
  match details.find? (fun d => !(Int.tmod d.2.1 2 == Int.tmod d.2.2 2)) with
  | none => ""
  | some d =>
    let isLeftOdd := !(Int.tmod d.2.1 2 == 0)
    let side :=
      if isLeftOdd then (if isZH then "左側" else "left side")
      else (if isZH then "右側" else "right side")
    let count := if isLeftOdd then d.2.1 else d.2.2
    if isZH then
      "💡 技巧：" ++ d.1 ++ " 原子的數量在" ++ side ++ "是奇數 (" ++ toString count ++
        ")。通常將含有該原子的化合物係數乘以 2 (變成偶數) 會有幫助。"
    else
      "💡 Tip: " ++ d.1 ++ " atoms are odd (" ++ toString count ++ ") on the " ++
        side ++ ". Doubling the coefficient to make it even often helps."

/-- The advice actually shown in the atom-mismatch branch: the topic advice
unless it is empty (falsy), in which case the odd/even fallback runs. -/
def atomAdvice (topic : EquationTopic) (isZH : Bool) (els : List String)
    (details : List (String × Int × Int)) : String :=
  let advice := adviceFor topic isZH els
  if advice = "" then oddEvenAdvice isZH details else advice

/-- The atom-mismatch message. -/
def atomHintMsg (st : BalanceState) (topic : EquationTopic) (isZH : Bool) :
    String :=
  (if isZH then "未平衡：" else "Unbalanced: ") ++
    String.intercalate ", " (unbalancedStrs st) ++ "\n\n" ++
    atomAdvice topic isZH (unbalancedEls st) (unbalancedTriples st)

inductive Feedback where
  | correct
  | incorrect
deriving DecidableEq, Repr

/-- What one `checkAnswer` call writes to the feedback/hint state. -/
structure Outcome where
  feedback : Feedback
  hintMessage : String
deriving DecidableEq, Repr

/-- `checkAnswer` (lines 105–286), as a pure function of the current
equation, the coefficient map, the selected topic and the language. -/
def checkAnswer (eq : ChemicalEquation) (uc : UC) (topic : EquationTopic)
    (lang : Language) : Except Unit Outcome := do
  let st ← computeState eq uc
  let isZH := lang.isZH
  if unbalancedStrs st = [] then
    if jneq st.chargeL st.chargeR then
      pure ⟨.incorrect, chargeHintMsg st topic isZH⟩
    else if isExactMatch eq uc then
      pure ⟨.correct, ""⟩
    else
      pure ⟨.incorrect, simplestMsg isZH⟩
  else
    pure ⟨.incorrect, atomHintMsg st topic isZH⟩

inductive Feedback3 where
  | fbNone
  | fbCorrect
  | fbIncorrect
deriving DecidableEq, Repr

/-- The session state `checkAnswer` can touch: score, feedback and hint. -/
structure SessionState where
  score : Int
  feedback : Feedback3
  hintMessage : String
deriving DecidableEq, Repr

/-- One `checkAnswer` invocation as a state transformer: a correct answer
adds 10 to the score and clears the hint, an incorrect one stores the hint. -/
def applyCheck (eq : ChemicalEquation) (uc : UC) (topic : EquationTopic)
    (lang : Language) (s : SessionState) : Except Unit SessionState := do
  let o ← checkAnswer eq uc topic lang
  match o.feedback with
  | .correct => pure ⟨s.score + 10, .fbCorrect, o.hintMessage⟩
  | .incorrect => pure ⟨s.score, .fbIncorrect, o.hintMessage⟩

/-- The feedback value one `checkAnswer` call stores. -/
def feedback3Of : Feedback → Feedback3
  | .correct => .fbCorrect
  | .incorrect => .fbIncorrect

/-- The regex test `/^[1-9]\d*$/` of `handleCoefficientChange`. -/
def isPosIntStr (s : String) : Bool :=
  match s.data with
  | [] => false
  | c :: tl => ('1' ≤ c && c ≤ '9') && tl.all Char.isDigit

/-- The editable UI state `handleCoefficientChange` touches. -/
structure EditorState where
  userCoefficients : UC
  feedback : Feedback3
  hintMessage : String

/-- `handleCoefficientChange` (lines 93–103): only the empty string or a
leading-zero-free digit string is stored; anything else leaves the state
untouched.  While feedback is `incorrect`, an accepted edit clears it. -/
def handleCoefficientChange (id value : String) (st : EditorState) :
    EditorState :=
  if value = "" || isPosIntStr value then
    { userCoefficients := fun k => if k = id then some value else st.userCoefficients k
      feedback := if st.feedback = .fbIncorrect then .fbNone else st.feedback
      hintMessage := if st.feedback = .fbIncorrect then "" else st.hintMessage }
  else st

/-! ### Specification-side definitions used to state the claims -/

/-- Total count carried by a key across all entries of a frame (for frames
with unique keys this is the stored count, `0` when absent). -/
def frameTotal (f : Frame) (el : String) : Nat :=
  (f.map (fun p => if p.1 = el then p.2 else 0)).sum

/-- Does `parseFormula` return a map (neither throw nor `undefined`)? -/
def parsesOkB (f : String) : Bool :=
  match parseFormula f with
  | .ok (some _) => true
  | _ => false

/-- The parsed frame of a formula (`[]` when parsing does not return one). -/
def atomsOf (f : String) : Frame :=
  match parseFormula f with
  | .ok (some fr) => fr
  | _ => []

/-- The UI-layer guarantee on the coefficient map: every stored entry is
empty or a leading-zero-free digit string. -/
def validUC (uc : UC) : Prop :=
  ∀ k s, uc k = some s → s = "" ∨ isPosIntStr s = true

/-- The resolved coefficient the spec describes: `1` for an absent or empty
entry, the decimal value otherwise. -/
def specCoeffVal (uc : UC) (key : String) : Int :=
  match uc key with
  | none => 1
  | some s => if s = "" then 1 else (digitsToNat s.data : Int)

/-- `sum(coeff * charge)` over enumerated terms, with coefficients given by
`γ`. -/
def chargeSumG (γ : Nat × EquationComponent → Int)
    (l : List (Nat × EquationComponent)) : Int :=
  (l.map (fun it => γ it * getCharge it.2.formula)).sum

/-- `sum(coeff * atomCount el)` over enumerated terms. -/
def atomSumG (γ : Nat × EquationComponent → Int)
    (l : List (Nat × EquationComponent)) (el : String) : Int :=
  (l.map (fun it => γ it * (frameTotal (atomsOf it.2.formula) el : Int))).sum

/-- Side charge total under the spec's coefficient resolution. -/
def chargeSumSpec (uc : UC) (pre : String) (terms : List EquationComponent) : Int :=
  chargeSumG (fun it => specCoeffVal uc (pre ++ "-" ++ toString it.1)) terms.enum

/-- Side atom total of one element under the spec's coefficient resolution. -/
def atomSumSpec (uc : UC) (pre : String) (terms : List EquationComponent)
    (el : String) : Int :=
  atomSumG (fun it => specCoeffVal uc (pre ++ "-" ++ toString it.1)) terms.enum el

/-- Keys an accumulated count map can hold: element symbols other than the
excluded `"e"`, never empty. -/
def goodKeys (counts : List (String × JsNum)) : Prop :=
  ∀ p ∈ counts, p.1 ≠ "e" ∧ p.1 ≠ ""

/-- `goodKeys` plus: no stored value is `NaN`. -/
def goodCounts (counts : List (String × JsNum)) : Prop :=
  ∀ p ∈ counts, p.1 ≠ "e" ∧ p.1 ≠ "" ∧ p.2 ≠ none

/-- Side charge total under the reference coefficients. -/
def refChargeSum (terms : List EquationComponent) : Int :=
  (terms.map (fun t => t.coefficient * getCharge t.formula)).sum

/-- Side atom total of one element under the reference coefficients. -/
def refAtomSum (terms : List EquationComponent) (el : String) : Int :=
  (terms.map (fun t => t.coefficient * (frameTotal (atomsOf t.formula) el : Int))).sum

/-- Every element symbol occurring in some parsed formula of the equation. -/
def elemsOf (eq : ChemicalEquation) : List String :=
  ((eq.reactants ++ eq.products).map
    (fun t => (atomsOf t.formula).map (fun p => p.1))).flatten

/-- The `ChemicalEquation` invariant: the reference coefficients balance
every element and the net charge. -/
def refBalanced (eq : ChemicalEquation) : Prop :=
  (∀ el ∈ elemsOf eq, el ≠ "e" →
    refAtomSum eq.reactants el = refAtomSum eq.products el) ∧
  refChargeSum eq.reactants = refChargeSum eq.products

/-- A well-formed generated equation: at least one term, positive reference
coefficients, parseable formulas, and balanced reference coefficients. -/
def wellFormed (eq : ChemicalEquation) : Prop :=
  (∀ t ∈ eq.reactants ++ eq.products,
    0 < t.coefficient ∧ parsesOkB t.formula = true) ∧
  eq.reactants ++ eq.products ≠ [] ∧ refBalanced eq

/-- The user entered `k` times the reference coefficient for every term. -/
def resolvesTo (uc : UC) (eq : ChemicalEquation) (k : Int) : Prop :=
  (∀ it ∈ eq.reactants.enum,
    coeffNum uc ("r-" ++ toString it.1) = some (k * it.2.coefficient)) ∧
  (∀ it ∈ eq.products.enum,
    coeffNum uc ("p-" ++ toString it.1) = some (k * it.2.coefficient))

/-- Is a token an opening group? -/
def isOpenTok : Token → Bool
  | .lpar => true
  | _ => false

/-- Is a token a closing group? -/
def isCloseTok : Token → Bool
  | .rpar _ => true
  | _ => false

def countOpen (ts : List Token) : Nat := ts.countP isOpenTok

def countClose (ts : List Token) : Nat := ts.countP isCloseTok

/-- No initial segment of the token stream closes more groups than it has
opened: every closing parenthesis has a matching opening one. -/
def neverDeficit (ts : List Token) : Prop :=
  ∀ pfx ∈ ts.inits, countClose pfx ≤ countOpen pfx

/-- An element token carries a nonempty symbol. -/
def tokGoodSym : Token → Prop
  | .elem s _ => s ≠ ""
  | _ => True

/-- The first character of a string, used to separate hint messages. -/
def headChar (s : String) : Option Char := s.data.head?

/-! ### Concrete inputs used by the witnesses -/

def waterEq : ChemicalEquation := ⟨[⟨"H2", 2⟩, ⟨"O2", 1⟩], [⟨"H2O", 2⟩]⟩

def waterUC : UC := fun k =>
  if k = "r-0" then some "2" else if k = "r-1" then some "1"
  else if k = "p-0" then some "2" else none

def waterUC2 : UC := fun k =>
  if k = "r-0" then some "4" else if k = "r-1" then some "2"
  else if k = "p-0" then some "4" else none

def halfEq : ChemicalEquation := ⟨[⟨"Fe^2+", 1⟩], [⟨"Fe^3+", 1⟩, ⟨"e^-", 1⟩]⟩

def halfUC2 : UC := fun k => if k = "p-1" then some "2" else none

/-! ### Association-list (JS object) lemmas -/

theorem lookupKey_updateKey_self {α : Type} (f : List (String × α)) (el : String)
    (v : α) : lookupKey (updateKey f el v) el = some v := by
  induction f with
  | nil => simp [updateKey, lookupKey]
  | cons p tl ih =>
    by_cases h : p.1 = el
    · simp [updateKey, h, lookupKey]
    · simp [updateKey, h, lookupKey, ih]

theorem lookupKey_updateKey_ne {α : Type} (f : List (String × α)) (el : String)
    (v : α) (x : String) (h : x ≠ el) :
    lookupKey (updateKey f el v) x = lookupKey f x := by
  induction f with
  | nil => simp only [updateKey, lookupKey, if_neg (Ne.symm h)]
  | cons q tl ih =>
    by_cases hq : q.1 = el
    · simp only [updateKey, if_pos hq, lookupKey, if_neg (Ne.symm h)]
      rw [if_neg fun hx : q.1 = x => h (hx.symm.trans hq)]
    · simp only [updateKey, if_neg hq, lookupKey, ih]

theorem mem_updateKey {α : Type} (f : List (String × α)) (el : String) (v : α)
    (p : String × α) (h : p ∈ updateKey f el v) : p = (el, v) ∨ p ∈ f := by
  induction f with
  | nil => simpa [updateKey] using h
  | cons q tl ih =>
    by_cases hq : q.1 = el
    · simp only [updateKey, if_pos hq] at h
      rcases List.mem_cons.mp h with h | h
      · exact Or.inl h
      · exact Or.inr (List.mem_cons_of_mem _ h)
    · simp only [updateKey, if_neg hq] at h
      rcases List.mem_cons.mp h with h | h
      · exact Or.inr (h ▸ List.mem_cons_self _ _)
      · rcases ih h with h | h
        · exact Or.inl h
        · exact Or.inr (List.mem_cons_of_mem _ h)

theorem natVal_addCount (f : Frame) (el : String) (n : Nat) (x : String) :
    natVal (addCount f el n) x = natVal f x + (if x = el then n else 0) := by
  unfold addCount
  rcases eq_or_ne x el with rfl | h
  · simp [natVal, lookupKey_updateKey_self]
  · simp [natVal, lookupKey_updateKey_ne _ _ _ _ h, h]

theorem mergeScaled_cons (outer : Frame) (a : String) (b : Nat) (tl : Frame)
    (mult : Nat) :
    mergeScaled outer ((a, b) :: tl) mult =
      mergeScaled (addCount outer a (b * mult)) tl mult := rfl

theorem natVal_mergeScaled (inner : Frame) :
    ∀ (outer : Frame) (mult : Nat) (x : String),
      natVal (mergeScaled outer inner mult) x =
        natVal outer x + frameTotal inner x * mult := by
  induction inner with
  | nil => intro outer mult x; simp [mergeScaled, frameTotal]
  | cons p tl ih =>
    intro outer mult x
    obtain ⟨a, b⟩ := p
    rw [mergeScaled_cons, ih, natVal_addCount]
    rcases eq_or_ne x a with rfl | h
    · simp [frameTotal]
      ring
    · simp [frameTotal, h, Ne.symm h]

/-- C1: the formula parser returns the exact element→count maps on
`Ca(OH)2` and `Fe2(SO4)3`; every count in a returned map is non-negative;
and a closing-group token pops the top frame, multiplies every entry by the
trailing multiplier and sums it into the enclosing frame. -/
theorem claim_C1 :
    parseFormula "Ca(OH)2" = .ok (some [("Ca", 1), ("O", 2), ("H", 2)]) ∧
    parseFormula "Fe2(SO4)3" = .ok (some [("Fe", 2), ("S", 3), ("O", 12)]) ∧
    (∀ f fr, parseFormula f = .ok (some fr) → ∀ p ∈ fr, 0 ≤ (p.2 : Int)) ∧
    (∀ (top next : Frame) (rest : List Frame) (mult : Nat),
      processToken (top :: next :: rest) (.rpar mult) =
        .ok (mergeScaled next top mult :: rest)) ∧
    (∀ (outer inner : Frame) (mult : Nat) (x : String),
      natVal (mergeScaled outer inner mult) x =
        natVal outer x + frameTotal inner x * mult) := by
  refine ⟨rfl, rfl, ?_, ?_, ?_⟩
  · intro f fr _ p _
    exact Int.natCast_nonneg p.2
  · intro top next rest mult; rfl
  · intro outer inner mult x; exact natVal_mergeScaled inner outer mult x

/-- Witness for C1 at a concrete parse. -/
theorem claim_C1_witness :
    (0 : Int) ≤ (((("Ca", 1) : String × Nat)).2 : Int) :=
  claim_C1.2.2.1 "Ca(OH)2" [("Ca", 1), ("O", 2), ("H", 2)] rfl ("Ca", 1)
    (by simp)

/-! ### Parser tolerance (C4) -/

theorem run_no_deficit :
    ∀ (ts : List Token) (stack : List Frame), stack ≠ [] →
      (∀ pfx rest, pfx ++ rest = ts →
        countClose pfx + 1 ≤ countOpen pfx + stack.length) →
      ∃ stack', ts.foldlM processToken stack = .ok stack' ∧
        stack'.length + countClose ts = stack.length + countOpen ts := by
  intro ts
  induction ts with
  | nil =>
    intro stack _ _
    exact ⟨stack, rfl, by simp [countClose, countOpen]⟩
  | cons t ts ih =>
    intro stack hne hpre
    cases t with
    | elem s n =>
      cases stack with
      | nil => exact absurd rfl hne
      | cons top rest =>
        obtain ⟨stack', hrun, hlen⟩ := ih (addCount top s n :: rest) (by simp)
          (fun pfx rest' hsplit => by
            have h := hpre (Token.elem s n :: pfx) rest' (by rw [List.cons_append, hsplit])
            simp [countClose, countOpen, List.countP_cons, isCloseTok,
              isOpenTok] at h ⊢
            omega)
        refine ⟨stack', ?_, ?_⟩
        · rw [List.foldlM_cons]
          exact hrun
        · simp [countClose, countOpen, List.countP_cons, isCloseTok,
            isOpenTok] at hlen ⊢
          omega
    | lpar =>
      obtain ⟨stack', hrun, hlen⟩ := ih ([] :: stack) (by simp)
        (fun pfx rest' hsplit => by
          have h := hpre (Token.lpar :: pfx) rest' (by rw [List.cons_append, hsplit])
          simp [countClose, countOpen, List.countP_cons, isCloseTok,
            isOpenTok] at h ⊢
          omega)
      refine ⟨stack', ?_, ?_⟩
      · rw [List.foldlM_cons]
        exact hrun
      · simp [countClose, countOpen, List.countP_cons, isCloseTok,
          isOpenTok] at hlen ⊢
        omega
    | rpar m =>
      have h2 : 2 ≤ stack.length := by
        have h := hpre [Token.rpar m] ts rfl
        simp [countClose, countOpen, List.countP_cons, isCloseTok,
          isOpenTok] at h
        omega
      cases stack with
      | nil => simp at h2
      | cons a s1 =>
        cases s1 with
        | nil => simp at h2
        | cons b r =>
          obtain ⟨stack', hrun, hlen⟩ := ih (mergeScaled b a m :: r) (by simp)
            (fun pfx rest' hsplit => by
              have h := hpre (Token.rpar m :: pfx) rest' (by rw [List.cons_append, hsplit])
              simp [countClose, countOpen, List.countP_cons, isCloseTok,
                isOpenTok] at h ⊢
              omega)
          refine ⟨stack', ?_, ?_⟩
          · rw [List.foldlM_cons]
            exact hrun
          · simp [countClose, countOpen, List.countP_cons, isCloseTok,
              isOpenTok] at hlen ⊢
            omega

theorem parse_balanced (f : String)
    (h : neverDeficit (lexChars (cleanChars f))) :
    ∃ fr, parseFormula f = .ok (some fr) := by
  obtain ⟨stack', hrun, hlen⟩ := run_no_deficit (lexChars (cleanChars f))
    [([] : Frame)] (by simp)
    (fun pfx rest hsplit => by
      have := h pfx ((List.mem_inits _ _).mpr ⟨rest, hsplit⟩)
      simpa using Nat.add_le_add_right this 1)
  have hfull : countClose (lexChars (cleanChars f)) ≤
      countOpen (lexChars (cleanChars f)) :=
    h _ ((List.mem_inits _ _).mpr ⟨[], List.append_nil _⟩)
  have hne : stack' ≠ [] := by
    intro hnil
    rw [hnil] at hlen
    simp at hlen
    omega
  obtain ⟨fr, hfr⟩ : ∃ fr, stack'.getLast? = some fr := by
    cases hg : stack'.getLast? with
    | some fr => exact ⟨fr, rfl⟩
    | none => exact absurd (List.getLast?_eq_none_iff.mp hg) hne
  refine ⟨fr, ?_⟩
  unfold parseFormula
  rw [hrun]
  simp [hfr]

theorem lexChars_skip (c : Char) (cs : List Char) (h1 : c.isUpper = false)
    (h2 : c ≠ 'e') (h3 : c ≠ '(') (h4 : c ≠ ')') :
    lexChars (c :: cs) = lexChars cs := by
  simp [lexChars, lexCharsF, h1, h2, h3, h4]

/-- C4 (amended): the parser returns a map without raising whenever no
initial segment of the token stream has an unmatched closing parenthesis;
characters matching no token are skipped; an unmatched trailing open group
silently drops its contents.  The unamended claim is refuted by
`claim_C4_cex`: an unmatched closing parenthesis that pops a nonempty base
frame throws a `TypeError`. -/
theorem claim_C4 :
    (∀ f, neverDeficit (lexChars (cleanChars f)) →
      ∃ fr, parseFormula f = .ok (some fr)) ∧
    (∀ (c : Char) (cs : List Char), c.isUpper = false → c ≠ 'e' →
      c ≠ '(' → c ≠ ')' → lexChars (c :: cs) = lexChars cs) ∧
    parseFormula "Ca(OH" = .ok (some [("Ca", 1)]) := by
  refine ⟨parse_balanced, lexChars_skip, rfl⟩

/-- C4 counterexample: on the token-grammar input `"H)"` (an element then
an unmatched closing parenthesis) the parser throws instead of tolerating
the malformed group, refuting the claim as stated. -/
theorem claim_C4_cex : parseFormula "H)" = .error () := rfl

/-- Witness for the amended C4 on a concrete balanced formula. -/
theorem claim_C4_witness : ∃ fr, parseFormula "Fe2(SO4)3" = .ok (some fr) :=
  claim_C4.1 "Fe2(SO4)3" (by unfold neverDeficit; decide)

/-! ### Charge extractor (C5) -/

theorem chargeScan_atSign (pre : List Char) :
    ∀ (acc tail : List Char), (∀ a ∈ pre, ¬(a = '+' ∨ a = '-')) →
      chargeScan acc (pre ++ tail) = chargeScan (pre.reverse ++ acc) tail := by
  induction pre with
  | nil => intro acc tail _; simp
  | cons c tl ih =>
    intro acc tail hns
    have hc : ¬(c = '+' ∨ c = '-') := hns c (by simp)
    simp only [List.cons_append, chargeScan, if_neg hc]
    rw [List.reverse_cons, List.append_assoc]
    exact ih (c :: acc) tail (fun a ha => hns a (by simp [ha]))

theorem chargeScan_noSign :
    ∀ (seg acc : List Char), (∀ a ∈ seg, ¬(a = '+' ∨ a = '-')) →
      chargeScan acc seg = none := by
  intro seg
  induction seg with
  | nil => intro acc _; rfl
  | cons c tl ih =>
    intro acc hns
    have hc : ¬(c = '+' ∨ c = '-') := hns c (by simp)
    simp only [chargeScan, if_neg hc]
    exact ih (c :: acc) (fun a ha => hns a (by simp [ha]))

/-- C5: the five reference charges; a formula with no `^` segment yields
`-1` exactly for the bare electron notations and `0` otherwise; a segment
whose first sign has no digits directly before it has magnitude 1; and a
segment with no sign at all yields `0`. -/
theorem claim_C5 :
    getCharge "SO4^2-" = -2 ∧ getCharge "Fe^3+" = 3 ∧ getCharge "Na^+" = 1 ∧
    getCharge "e^-" = -1 ∧ getCharge "H2O" = 0 ∧
    (∀ f : String, f.data.contains '^' = false →
      getCharge f = if f = "e" ∨ f = "e-" then -1 else 0) ∧
    (∀ f : String, f.data.contains '^' = true →
      chargeScan [] (chargeSeg f) = none → getCharge f = 0) ∧
    (∀ f : String, f.data.contains '^' = true → ∀ v,
      chargeScan [] (chargeSeg f) = some v → getCharge f = v) ∧
    (∀ seg : List Char, (∀ a ∈ seg, ¬(a = '+' ∨ a = '-')) →
      chargeScan [] seg = none) ∧
    (∀ (pre post : List Char) (c : Char),
      (∀ a ∈ pre, ¬(a = '+' ∨ a = '-')) → (c = '+' ∨ c = '-') →
      (pre = [] ∨ ∃ l d, pre = l ++ [d] ∧ d.isDigit = false) →
      chargeScan [] (pre ++ c :: post) = some (if c = '+' then 1 else -1)) := by
  refine ⟨by decide, by decide, by decide, by decide, by decide, ?_, ?_, ?_,
    ?_, ?_⟩
  · intro f h
    have hm : '^' ∉ f.data := by simpa using h
    simp [getCharge, hm]
  · intro f h hscan
    have hm : '^' ∈ f.data := by simpa using h
    simp [getCharge, hm, hscan]
  · intro f h v hscan
    have hm : '^' ∈ f.data := by simpa using h
    simp [getCharge, hm, hscan]
  · intro seg hns
    exact chargeScan_noSign seg [] hns
  · intro pre post c hns hc hnd
    rw [chargeScan_atSign pre [] (c :: post) hns]
    simp only [chargeScan, if_pos hc]
    have hrun : (pre.reverse ++ []).takeWhile Char.isDigit = [] := by
      rcases hnd with rfl | ⟨l, d, rfl, hd⟩
      · rfl
      · simp [List.takeWhile_cons, hd]
    rw [hrun]
    simp

/-- Witness for C5: a sign with a non-digit directly before it parses with
magnitude 1. -/
theorem claim_C5_witness : chargeScan [] (['x'] ++ '+' :: []) = some 1 := by
  have h := claim_C5.2.2.2.2.2.2.2.2.2 ['x'] [] '+' (by decide) (by decide)
    (Or.inr ⟨[], 'x', rfl, by decide⟩)
  simpa using h

/-! ### Character and `parseInt` facts (C2, C8) -/

theorem digit_not_ws (c : Char) (h : c.isDigit = true) :
    c.isWhitespace = false := by
  simp only [Char.isWhitespace, Bool.or_eq_false_iff, decide_eq_false_iff_not]
  refine ⟨⟨⟨?_, ?_⟩, ?_⟩, ?_⟩ <;> rintro rfl <;> exact absurd h (by decide)

theorem digit_ne_plus (c : Char) (h : c.isDigit = true) : c ≠ '+' := by
  rintro rfl; exact absurd h (by decide)

theorem digit_ne_minus (c : Char) (h : c.isDigit = true) : c ≠ '-' := by
  rintro rfl; exact absurd h (by decide)

theorem digit_of_range (c : Char) (h1 : '1' ≤ c) (h9 : c ≤ '9') :
    c.isDigit = true := by
  simp only [Char.isDigit, Bool.and_eq_true, decide_eq_true_eq]
  exact ⟨UInt32.le_trans (by decide : (48 : UInt32) ≤ ('1' : Char).val)
      (Char.le_def.mp h1),
    UInt32.le_trans (Char.le_def.mp h9) (by decide : ('9' : Char).val ≤ 57)⟩

theorem takeWhile_digits (l : List Char) (h : ∀ c ∈ l, c.isDigit = true) :
    l.takeWhile Char.isDigit = l := by
  induction l with
  | nil => rfl
  | cons c tl ih =>
    rw [List.takeWhile_cons, if_pos (h c (by simp))]
    rw [ih (fun a ha => h a (by simp [ha]))]

theorem jsParseInt_posIntStr (s : String) (hp : isPosIntStr s = true) :
    jsParseInt s = some (digitsToNat s.data : Int) := by
  cases hd : s.data with
  | nil => rw [isPosIntStr, hd] at hp; exact absurd hp (by simp)
  | cons c tl =>
    rw [isPosIntStr, hd] at hp
    rw [Bool.and_eq_true, Bool.and_eq_true, decide_eq_true_eq,
      decide_eq_true_eq] at hp
    obtain ⟨⟨h1, h9⟩, htl⟩ := hp
    have hcd : c.isDigit = true := digit_of_range c h1 h9
    have halld : ∀ a ∈ c :: tl, a.isDigit = true := by
      intro a ha
      rcases List.mem_cons.mp ha with rfl | ha
      · exact hcd
      · exact (List.all_eq_true.mp htl) a ha
    have hdrop : (c :: tl).dropWhile Char.isWhitespace = c :: tl := by
      rw [List.dropWhile_cons, digit_not_ws c hcd]
      simp
    rw [jsParseInt, hd, hdrop]
    simp only [if_neg (digit_ne_plus c hcd), if_neg (digit_ne_minus c hcd)]
    rw [jsNatScan]
    simp only [takeWhile_digits _ halld]
    simp

/-! ### Keys produced by the parser are nonempty element symbols -/

theorem lexCharsF_symbols :
    ∀ (fuel : Nat) (cs : List Char) (t : Token),
      t ∈ lexCharsF fuel cs → tokGoodSym t := by
  intro fuel
  induction fuel with
  | zero => intro cs t ht; exact absurd ht (by simp [lexCharsF])
  | succ n ih =>
    intro cs t ht
    cases cs with
    | nil => exact absurd ht (by simp [lexCharsF])
    | cons c tl =>
      simp only [lexCharsF] at ht
      by_cases h1 : c.isUpper
      · rw [if_pos h1] at ht
        rcases List.mem_cons.mp ht with rfl | ht
        · show String.mk (c :: tl.takeWhile Char.isLower) ≠ ""
          intro h
          simpa using congrArg String.data h
        · exact ih _ _ ht
      · rw [if_neg h1] at ht
        by_cases h2 : c = 'e'
        · rw [if_pos h2] at ht
          rcases List.mem_cons.mp ht with rfl | ht
          · show ("e" : String) ≠ ""
            decide
          · exact ih _ _ ht
        · rw [if_neg h2] at ht
          by_cases h3 : c = '('
          · rw [if_pos h3] at ht
            rcases List.mem_cons.mp ht with rfl | ht
            · trivial
            · exact ih _ _ ht
          · rw [if_neg h3] at ht
            by_cases h4 : c = ')'
            · rw [if_pos h4] at ht
              rcases List.mem_cons.mp ht with rfl | ht
              · trivial
              · exact ih _ _ ht
            · rw [if_neg h4] at ht
              exact ih _ _ ht

/-- Every key of every frame on the stack is a nonempty symbol. -/
def stackKeysOk (stack : List Frame) : Prop :=
  ∀ fr ∈ stack, ∀ p ∈ fr, p.1 ≠ ""

theorem mem_mergeScaled (inner : Frame) :
    ∀ (outer : Frame) (mult : Nat) (p : String × Nat),
      p ∈ mergeScaled outer inner mult →
      (∃ q ∈ inner, p.1 = q.1) ∨ p ∈ outer := by
  induction inner with
  | nil => intro outer mult p hp; exact Or.inr hp
  | cons q tl ih =>
    intro outer mult p hp
    obtain ⟨a, b⟩ := q
    rw [mergeScaled_cons] at hp
    rcases ih _ _ _ hp with ⟨q', hq', hpq⟩ | hp
    · exact Or.inl ⟨q', List.mem_cons_of_mem _ hq', hpq⟩
    · rcases mem_updateKey _ _ _ _ hp with rfl | hp
      · exact Or.inl ⟨(a, b), List.mem_cons_self _ _, rfl⟩
      · exact Or.inr hp

theorem processToken_keys (stack : List Frame) (t : Token)
    (stack' : List Frame) (hs : stackKeysOk stack) (ht : tokGoodSym t)
    (h : processToken stack t = .ok stack') : stackKeysOk stack' := by
  cases t with
  | elem s n =>
    cases stack with
    | nil => exact absurd h (by simp [processToken])
    | cons top rest =>
      simp only [processToken] at h
      cases h
      intro fr hfr p hp
      rcases List.mem_cons.mp hfr with rfl | hfr
      · rcases mem_updateKey top s (natVal top s + n) p hp with rfl | hp
        · exact ht
        · exact hs top (List.mem_cons_self _ _) p hp
      · exact hs fr (List.mem_cons_of_mem _ hfr) p hp
  | lpar =>
    simp only [processToken] at h
    cases h
    intro fr hfr p hp
    rcases List.mem_cons.mp hfr with rfl | hfr
    · exact absurd hp (by simp)
    · exact hs fr hfr p hp
  | rpar m =>
    cases stack with
    | nil =>
      simp only [processToken] at h
      cases h
      intro fr hfr
      exact absurd hfr (by simp)
    | cons a s1 =>
      cases s1 with
      | nil =>
        simp only [processToken] at h
        by_cases ha : a = []
        · rw [if_pos ha] at h
          cases h
          intro fr hfr
          exact absurd hfr (by simp)
        · rw [if_neg ha] at h
          exact absurd h (by simp)
      | cons b r =>
        simp only [processToken] at h
        cases h
        intro fr hfr p hp
        rcases List.mem_cons.mp hfr with rfl | hfr
        · rcases mem_mergeScaled a b m p hp with ⟨q, hq, hpq⟩ | hp
          · rw [hpq]
            exact hs a (List.mem_cons_self _ _) q hq
          · exact hs b (List.mem_cons_of_mem _ (List.mem_cons_self _ _)) p hp
        · exact hs fr (List.mem_cons_of_mem _ (List.mem_cons_of_mem _ hfr)) p hp

theorem runTokens_keys :
    ∀ (ts : List Token) (stack stack' : List Frame),
      (∀ t ∈ ts, tokGoodSym t) → stackKeysOk stack →
      ts.foldlM processToken stack = .ok stack' → stackKeysOk stack' := by
  intro ts
  induction ts with
  | nil =>
    intro stack stack' _ hs h
    cases h
    exact hs
  | cons t ts ih =>
    intro stack stack' hts hs h
    rw [List.foldlM_cons] at h
    cases hstep : processToken stack t with
    | error e => rw [hstep] at h; exact absurd h (by simp [Bind.bind, Except.bind])
    | ok s1 =>
      rw [hstep] at h
      exact ih s1 stack' (fun x hx => hts x (List.mem_cons_of_mem _ hx))
        (processToken_keys stack t s1 hs (hts t (List.mem_cons_self _ _)) hstep)
        h

theorem getLast?_mem {α : Type} :
    ∀ (l : List α) (a : α), l.getLast? = some a → a ∈ l := by
  intro l
  induction l with
  | nil => intro a h; simp at h
  | cons x xs ih =>
    intro a h
    cases xs with
    | nil =>
      simp only [List.getLast?_singleton, Option.some.injEq] at h
      simp [h]
    | cons y ys =>
      rw [List.getLast?_cons_cons] at h
      exact List.mem_cons_of_mem _ (ih a h)

theorem parse_keys (f : String) (fr : Frame)
    (h : parseFormula f = .ok (some fr)) : ∀ p ∈ fr, p.1 ≠ "" := by
  unfold parseFormula at h
  cases hrun : (lexChars (cleanChars f)).foldlM processToken [([] : Frame)] with
  | error e => rw [hrun] at h; exact absurd h (by simp [Bind.bind, Except.bind])
  | ok stack' =>
    rw [hrun] at h
    have h' : stack'.getLast? = some fr := by
      simpa [Bind.bind, Except.bind, pure, Except.pure] using h
    have hgood : stackKeysOk stack' :=
      runTokens_keys _ _ _ (fun t ht => lexCharsF_symbols _ _ t ht)
        (by
          intro g hg p hp
          simp only [List.mem_singleton] at hg
          subst hg
          exact absurd hp (by simp))
        hrun
    exact fun p hp => hgood fr (getLast?_mem stack' fr h') p hp

theorem coeffNum_of_valid (uc : UC) (hv : validUC uc) (key : String) :
    coeffNum uc key = some (specCoeffVal uc key) := by
  unfold coeffNum resolveRaw specCoeffVal
  cases h : uc key with
  | none => rfl
  | some s =>
    by_cases hs : s = ""
    · simp [hs]
      rfl
    · simp only [if_neg hs]
      rcases hv key s h with rfl | hp
      · exact absurd rfl hs
      · exact jsParseInt_posIntStr s hp

/-! ### The balance evaluator under resolved coefficients (C2, C3) -/

theorem parsesOkB_spec (f : String) (h : parsesOkB f = true) :
    parseFormula f = .ok (some (atomsOf f)) := by
  unfold parsesOkB at h
  unfold atomsOf
  cases hp : parseFormula f with
  | error e => rw [hp] at h; simp at h
  | ok o =>
    cases o with
    | none => rw [hp] at h; simp at h
    | some fr => rfl

theorem cval_updateKey_self (acc : List (String × JsNum)) (el : String)
    (w : Int) : cval (updateKey acc el (some w)) el = w := by
  unfold cval
  rw [lookupKey_updateKey_self]

theorem cval_updateKey_ne (acc : List (String × JsNum)) (el : String)
    (v : JsNum) (x : String) (h : x ≠ el) :
    cval (updateKey acc el v) x = cval acc x := by
  unfold cval
  rw [lookupKey_updateKey_ne _ _ _ _ h]

theorem accumAtoms_spec (cf : Int) (atoms : Frame) :
    ∀ (counts : List (String × JsNum)),
      goodCounts counts → (∀ p ∈ atoms, p.1 ≠ "") →
      goodCounts (accumAtoms (some cf) atoms counts) ∧
      (∀ el, el ≠ "e" →
        cval (accumAtoms (some cf) atoms counts) el =
          cval counts el + (frameTotal atoms el : Int) * cf) := by
  induction atoms with
  | nil =>
    intro counts hg _
    exact ⟨hg, fun el _ => by simp [accumAtoms, frameTotal]⟩
  | cons q tl ih =>
    intro counts hg hkeys
    obtain ⟨a, b⟩ := q
    by_cases ha : a = "e"
    · subst ha
      have step : accumAtoms (some cf) (("e", b) :: tl) counts =
          accumAtoms (some cf) tl counts := by
        simp [accumAtoms]
      rw [step]
      obtain ⟨hg', hv⟩ := ih counts hg (fun p hp => hkeys p (List.mem_cons_of_mem _ hp))
      refine ⟨hg', fun el hel => ?_⟩
      rw [hv el hel]
      have hfe : (("e" : String) = el) = False := eq_false (fun h => hel h.symm)
      simp [frameTotal, hfe]
    · have step : accumAtoms (some cf) ((a, b) :: tl) counts =
          accumAtoms (some cf) tl
            (jsAccum counts a (jmul (some (b : Int)) (some cf))) := by
        simp [accumAtoms, ha]
      rw [step]
      have ha' : a ≠ "" := hkeys (a, b) (List.mem_cons_self _ _)
      have hj : jsAccum counts a (jmul (some (b : Int)) (some cf)) =
          updateKey counts a (some (cval counts a + (b : Int) * cf)) := rfl
      rw [hj]
      have hg1 : goodCounts
          (updateKey counts a (some (cval counts a + (b : Int) * cf))) := by
        intro p hp
        rcases mem_updateKey _ _ _ _ hp with rfl | hp
        · exact ⟨ha, ha', by simp⟩
        · exact hg p hp
      obtain ⟨hg', hv⟩ := ih _ hg1 (fun p hp => hkeys p (List.mem_cons_of_mem _ hp))
      refine ⟨hg', fun el hel => ?_⟩
      rw [hv el hel]
      rcases eq_or_ne el a with rfl | hne
      · rw [cval_updateKey_self]
        simp [frameTotal]
        ring
      · rw [cval_updateKey_ne _ _ _ _ hne]
        simp [frameTotal, Ne.symm hne]

theorem sideStep_ok (uc : UC) (pre : String) (counts : List (String × JsNum))
    (ch : Int) (it : Nat × EquationComponent) (cv : Int)
    (hres : coeffNum uc (pre ++ "-" ++ toString it.1) = some cv)
    (hpar : parsesOkB it.2.formula = true) :
    sideStep uc pre (counts, some ch) it =
      .ok (accumAtoms (some cv) (atomsOf it.2.formula) counts,
        some (ch + cv * getCharge it.2.formula)) := by
  unfold sideStep
  rw [parsesOkB_spec _ hpar, hres]
  rfl

theorem foldSide_ok (uc : UC) (pre : String)
    (γ : Nat × EquationComponent → Int) :
    ∀ (l : List (Nat × EquationComponent)) (counts : List (String × JsNum))
      (ch : Int),
      (∀ it ∈ l, coeffNum uc (pre ++ "-" ++ toString it.1) = some (γ it)) →
      (∀ it ∈ l, parsesOkB it.2.formula = true) →
      goodCounts counts →
      ∃ counts',
        l.foldlM (sideStep uc pre) (counts, some ch) =
          .ok (counts', some (ch + chargeSumG γ l)) ∧
        goodCounts counts' ∧
        (∀ el, el ≠ "e" →
          cval counts' el = cval counts el + atomSumG γ l el) := by
  intro l
  induction l with
  | nil =>
    intro counts ch _ _ hg
    exact ⟨counts, by simp [chargeSumG, pure, Except.pure], hg,
      fun el _ => by simp [atomSumG]⟩
  | cons it l ih =>
    intro counts ch hres hpar hg
    have hstep := sideStep_ok uc pre counts ch it (γ it)
      (hres it (List.mem_cons_self _ _)) (hpar it (List.mem_cons_self _ _))
    have hkeys : ∀ p ∈ atomsOf it.2.formula, p.1 ≠ "" :=
      parse_keys _ _ (parsesOkB_spec _ (hpar it (List.mem_cons_self _ _)))
    obtain ⟨hga, hva⟩ :=
      accumAtoms_spec (γ it) (atomsOf it.2.formula) counts hg hkeys
    obtain ⟨counts', hrun, hg', hv'⟩ :=
      ih (accumAtoms (some (γ it)) (atomsOf it.2.formula) counts)
        (ch + γ it * getCharge it.2.formula)
        (fun x hx => hres x (List.mem_cons_of_mem _ hx))
        (fun x hx => hpar x (List.mem_cons_of_mem _ hx)) hga
    refine ⟨counts', ?_, hg', ?_⟩
    · rw [List.foldlM_cons, hstep]
      have hsum : ch + chargeSumG γ (it :: l) =
          ch + γ it * getCharge it.2.formula + chargeSumG γ l := by
        simp [chargeSumG]
        ring
      rw [hsum]
      exact hrun
    · intro el hel
      rw [hv' el hel, hva el hel]
      simp [atomSumG]
      ring

theorem computeState_ok (eq : ChemicalEquation) (uc : UC)
    (γr γp : Nat × EquationComponent → Int)
    (hrr : ∀ it ∈ eq.reactants.enum,
      coeffNum uc ("r-" ++ toString it.1) = some (γr it))
    (hpp : ∀ it ∈ eq.products.enum,
      coeffNum uc ("p-" ++ toString it.1) = some (γp it))
    (hfr : ∀ it ∈ eq.reactants.enum, parsesOkB it.2.formula = true)
    (hfp : ∀ it ∈ eq.products.enum, parsesOkB it.2.formula = true) :
    ∃ st, computeState eq uc = .ok st ∧
      st.chargeL = some (chargeSumG γr eq.reactants.enum) ∧
      st.chargeR = some (chargeSumG γp eq.products.enum) ∧
      goodCounts st.rCounts ∧ goodCounts st.pCounts ∧
      (∀ el, el ≠ "e" →
        leftCount st el = atomSumG γr eq.reactants.enum el ∧
        rightCount st el = atomSumG γp eq.products.enum el) := by
  obtain ⟨rc, hrrun, hrg, hrv⟩ :=
    foldSide_ok uc "r" γr eq.reactants.enum [] 0 hrr hfr
      (fun p hp => absurd hp (by simp))
  obtain ⟨pc, hprun, hpg, hpv⟩ :=
    foldSide_ok uc "p" γp eq.products.enum [] 0 hpp hfp
      (fun p hp => absurd hp (by simp))
  refine ⟨⟨rc, pc, some (chargeSumG γr eq.reactants.enum),
      some (chargeSumG γp eq.products.enum)⟩, ?_, rfl, rfl, hrg, hpg, ?_⟩
  · unfold computeState sideFold
    rw [hrrun, hprun]
    simp [Bind.bind, Except.bind, pure, Except.pure]
  · intro el hel
    constructor
    · have := hrv el hel
      simpa [leftCount, cval, lookupKey] using this
    · have := hpv el hel
      simpa [rightCount, cval, lookupKey] using this

theorem snd_mem_of_mem_enumFrom {α : Type} :
    ∀ (l : List α) (n : Nat) (it : Nat × α),
      it ∈ List.enumFrom n l → it.2 ∈ l := by
  intro l
  induction l with
  | nil => intro n it h; simp at h
  | cons x xs ih =>
    intro n it h
    rw [List.enumFrom_cons] at h
    rcases List.mem_cons.mp h with rfl | h
    · exact List.mem_cons_self _ _
    · exact List.mem_cons_of_mem _ (ih (n + 1) it h)

theorem snd_mem_of_mem_enum {α : Type} (l : List α) (it : Nat × α)
    (h : it ∈ l.enum) : it.2 ∈ l :=
  snd_mem_of_mem_enumFrom l 0 it h

theorem lookupKey_eq_none {α : Type} (f : List (String × α)) (x : String)
    (h : ∀ p ∈ f, p.1 ≠ x) : lookupKey f x = none := by
  induction f with
  | nil => rfl
  | cons p tl ih =>
    rw [lookupKey, if_neg (h p (List.mem_cons_self _ _))]
    exact ih (fun q hq => h q (List.mem_cons_of_mem _ hq))

theorem mem_dedupFirstAux :
    ∀ (l seen : List String) (x : String), x ∈ dedupFirstAux seen l → x ∈ l := by
  intro l
  induction l with
  | nil => intro seen x h; simp [dedupFirstAux] at h
  | cons y tl ih =>
    intro seen x h
    rw [dedupFirstAux] at h
    by_cases hy : seen.contains y
    · rw [if_pos hy] at h
      exact List.mem_cons_of_mem _ (ih seen x h)
    · rw [if_neg hy] at h
      rcases List.mem_cons.mp h with rfl | h
      · exact List.mem_cons_self _ _
      · exact List.mem_cons_of_mem _ (ih (y :: seen) x h)

theorem mem_allElements (st : BalanceState) (el : String)
    (h : el ∈ allElements st) :
    el ∈ st.rCounts.map (fun p => p.1) ++ st.pCounts.map (fun p => p.1) :=
  mem_dedupFirstAux _ [] el h

/-- With matching totals on every non-electron element, the comparison loop
records nothing. -/
theorem triples_nil (st : BalanceState)
    (hgr : ∀ p ∈ st.rCounts, p.1 ≠ "e") (hgp : ∀ p ∈ st.pCounts, p.1 ≠ "e")
    (h : ∀ el, el ≠ "e" → leftCount st el = rightCount st el) :
    unbalancedTriples st = [] := by
  unfold unbalancedTriples
  rw [List.filterMap_eq_nil_iff]
  intro el hel
  have hne : el ≠ "e" := by
    rcases List.mem_append.mp (mem_allElements st el hel) with hm | hm
    · obtain ⟨p, hp, rfl⟩ := List.mem_map.mp hm
      exact hgr p hp
    · obtain ⟨p, hp, rfl⟩ := List.mem_map.mp hm
      exact hgp p hp
  simp [h el hne]

/-- C2: with a coefficient map whose entries are absent, empty, or
leading-zero-free digit strings, every term's coefficient resolves to its
decimal value (1 when absent or empty), the pseudo-element `"e"` never
enters either side's atom totals, and each side's charge is the sum of
coefficient times formula charge. -/
theorem claim_C2 (eq : ChemicalEquation) (uc : UC) (hv : validUC uc)
    (hr : ∀ t ∈ eq.reactants, parsesOkB t.formula = true)
    (hp : ∀ t ∈ eq.products, parsesOkB t.formula = true) :
    (∀ key, coeffNum uc key = some (specCoeffVal uc key)) ∧
    ∃ st, computeState eq uc = .ok st ∧
      lookupKey st.rCounts "e" = none ∧ lookupKey st.pCounts "e" = none ∧
      st.chargeL = some (chargeSumSpec uc "r" eq.reactants) ∧
      st.chargeR = some (chargeSumSpec uc "p" eq.products) ∧
      (∀ el, el ≠ "e" →
        leftCount st el = atomSumSpec uc "r" eq.reactants el ∧
        rightCount st el = atomSumSpec uc "p" eq.products el) := by
  refine ⟨fun key => coeffNum_of_valid uc hv key, ?_⟩
  obtain ⟨st, hst, hcl, hcr, hgr, hgp, hval⟩ := computeState_ok eq uc
    (fun it => specCoeffVal uc ("r-" ++ toString it.1))
    (fun it => specCoeffVal uc ("p-" ++ toString it.1))
    (fun it _ => coeffNum_of_valid uc hv _)
    (fun it _ => coeffNum_of_valid uc hv _)
    (fun it hit => hr it.2 (snd_mem_of_mem_enum _ it hit))
    (fun it hit => hp it.2 (snd_mem_of_mem_enum _ it hit))
  exact ⟨st, hst,
    lookupKey_eq_none _ _ (fun p hpm => (hgr p hpm).1),
    lookupKey_eq_none _ _ (fun p hpm => (hgp p hpm).1),
    hcl, hcr, hval⟩

/-- Witness for C2 on the water equation with concrete valid entries. -/
theorem claim_C2_witness :
    (∀ key, coeffNum waterUC key = some (specCoeffVal waterUC key)) ∧
    ∃ st, computeState waterEq waterUC = .ok st ∧
      lookupKey st.rCounts "e" = none ∧ lookupKey st.pCounts "e" = none ∧
      st.chargeL = some (chargeSumSpec waterUC "r" waterEq.reactants) ∧
      st.chargeR = some (chargeSumSpec waterUC "p" waterEq.products) ∧
      (∀ el, el ≠ "e" →
        leftCount st el = atomSumSpec waterUC "r" waterEq.reactants el ∧
        rightCount st el = atomSumSpec waterUC "p" waterEq.products el) :=
  claim_C2 waterEq waterUC
    (by
      intro k s h
      unfold waterUC at h
      split_ifs at h
      all_goals first
        | exact Option.noConfusion h
        | (cases h; right; decide))
    (by decide) (by decide)

/-! ### Match classification (C3) -/

theorem jneq_some_iff (a : JsNum) (c : Int) :
    jneq a (some c) = false ↔ a = some c := by
  cases a <;> simp [jneq]

theorem jneq_self (c : Int) : jneq (some c) (some c) = false := by
  simp [jneq]

theorem checkAnswer_eq (eq : ChemicalEquation) (uc : UC)
    (topic : EquationTopic) (lang : Language) (st : BalanceState)
    (hst : computeState eq uc = .ok st) :
    checkAnswer eq uc topic lang = .ok (
      if unbalancedStrs st = [] then
        if jneq st.chargeL st.chargeR then
          ⟨.incorrect, chargeHintMsg st topic lang.isZH⟩
        else if isExactMatch eq uc then ⟨.correct, ""⟩
        else ⟨.incorrect, simplestMsg lang.isZH⟩
      else ⟨.incorrect, atomHintMsg st topic lang.isZH⟩) := by
  unfold checkAnswer
  rw [hst]
  simp only [Bind.bind, Except.bind]
  by_cases h1 : unbalancedStrs st = []
  · rw [if_pos h1, if_pos h1]
    by_cases h2 : jneq st.chargeL st.chargeR = true
    · rw [if_pos h2, if_pos h2]
      rfl
    · rw [if_neg h2, if_neg h2]
      by_cases h3 : isExactMatch eq uc = true
      · rw [if_pos h3, if_pos h3]
        rfl
      · rw [if_neg h3, if_neg h3]
        rfl
  · rw [if_neg h1, if_neg h1]
    rfl

theorem isExactMatch_iff (eq : ChemicalEquation) (uc : UC) :
    isExactMatch eq uc = true ↔ resolvesTo uc eq 1 := by
  unfold isExactMatch resolvesTo
  rw [Bool.and_eq_true, List.all_eq_true, List.all_eq_true]
  constructor
  · rintro ⟨h1, h2⟩
    constructor
    · intro it hit
      have h := h1 it hit
      rw [Bool.not_eq_true'] at h
      rw [one_mul]
      exact (jneq_some_iff _ _).mp h
    · intro it hit
      have h := h2 it hit
      rw [Bool.not_eq_true'] at h
      rw [one_mul]
      exact (jneq_some_iff _ _).mp h
  · rintro ⟨h1, h2⟩
    constructor
    · intro it hit
      rw [Bool.not_eq_true']
      exact (jneq_some_iff _ _).mpr (by rw [h1 it hit, one_mul])
    · intro it hit
      rw [Bool.not_eq_true']
      exact (jneq_some_iff _ _).mpr (by rw [h2 it hit, one_mul])

theorem enumFrom_map_snd {α β : Type} (g : α → β) :
    ∀ (l : List α) (n : Nat),
      (List.enumFrom n l).map (fun it => g it.2) = l.map g := by
  intro l
  induction l with
  | nil => intro n; rfl
  | cons x xs ih =>
    intro n
    rw [List.enumFrom_cons]
    simp only [List.map_cons, ih]

theorem chargeSumG_scale (k : Int) (terms : List EquationComponent) :
    chargeSumG (fun it => k * it.2.coefficient) terms.enum =
      k * refChargeSum terms := by
  unfold chargeSumG refChargeSum
  have he : terms.enum = List.enumFrom 0 terms := rfl
  rw [he,
    enumFrom_map_snd (fun t : EquationComponent =>
      k * t.coefficient * getCharge t.formula) terms 0]
  simp only [mul_assoc]
  exact List.sum_map_mul_left terms
    (fun t => t.coefficient * getCharge t.formula) k

theorem atomSumG_scale (k : Int) (terms : List EquationComponent)
    (el : String) :
    atomSumG (fun it => k * it.2.coefficient) terms.enum el =
      k * refAtomSum terms el := by
  unfold atomSumG refAtomSum
  have he : terms.enum = List.enumFrom 0 terms := rfl
  rw [he,
    enumFrom_map_snd (fun t : EquationComponent =>
      k * t.coefficient * (frameTotal (atomsOf t.formula) el : Int)) terms 0]
  simp only [mul_assoc]
  exact List.sum_map_mul_left terms
    (fun t => t.coefficient * (frameTotal (atomsOf t.formula) el : Int)) k

theorem frameTotal_zero (el : String) :
    ∀ f : Frame, (∀ p ∈ f, p.1 ≠ el) → frameTotal f el = 0 := by
  intro f
  induction f with
  | nil => intro _; rfl
  | cons p tl ih =>
    intro h
    have ht := ih (fun q hq => h q (List.mem_cons_of_mem _ hq))
    simp only [frameTotal, List.map_cons, List.sum_cons] at ht ⊢
    rw [if_neg (h p (List.mem_cons_self _ _)), ht]

theorem elem_mem_elemsOf (eq : ChemicalEquation) (t : EquationComponent)
    (ht : t ∈ eq.reactants ++ eq.products) (p : String × Nat)
    (hp : p ∈ atomsOf t.formula) : p.1 ∈ elemsOf eq := by
  unfold elemsOf
  exact List.mem_flatten.mpr
    ⟨(atomsOf t.formula).map (fun q => q.1), List.mem_map.mpr ⟨t, ht, rfl⟩,
      List.mem_map.mpr ⟨p, hp, rfl⟩⟩

theorem refAtomSum_zero (eq : ChemicalEquation)
    (terms : List EquationComponent)
    (hsub : ∀ t ∈ terms, t ∈ eq.reactants ++ eq.products) (el : String)
    (h : el ∉ elemsOf eq) : refAtomSum terms el = 0 := by
  unfold refAtomSum
  apply List.sum_eq_zero
  intro x hx
  obtain ⟨t, ht, rfl⟩ := List.mem_map.mp hx
  have hz : frameTotal (atomsOf t.formula) el = 0 := by
    apply frameTotal_zero
    intro p hp hpe
    exact h (hpe ▸ elem_mem_elemsOf eq t (hsub t ht) p hp)
  rw [hz]
  simp

theorem scaled_coeff_ne (k c : Int) (hk : 1 < k) (hc : 0 < c) :
    k * c ≠ c := by
  intro h
  have hlt : 1 * c < k * c := mul_lt_mul_of_pos_right hk hc
  rw [one_mul, h] at hlt
  exact lt_irrefl c hlt

theorem isExactMatch_false_of_scaled (eq : ChemicalEquation) (uc : UC)
    (k : Int) (hk : 1 < k) (hres : resolvesTo uc eq k)
    (hpos : ∀ t ∈ eq.reactants ++ eq.products, 0 < t.coefficient)
    (hne : eq.reactants ++ eq.products ≠ []) :
    isExactMatch eq uc = false := by
  rw [Bool.eq_false_iff]
  intro hex
  rw [isExactMatch_iff] at hex
  cases hr : eq.reactants with
  | cons t ts =>
    have h1 := hres.1
    have h2 := hex.1
    rw [hr] at h1 h2
    have hm : ((0 : Nat), t) ∈ (t :: ts).enum := by
      rw [List.enum_cons]
      exact List.mem_cons_self _ _
    have e12 := Option.some.inj ((h1 _ hm).symm.trans (h2 _ hm))
    rw [one_mul] at e12
    have hc : 0 < t.coefficient :=
      hpos t (by rw [hr]; exact List.mem_append_left _ (List.mem_cons_self _ _))
    exact scaled_coeff_ne k t.coefficient hk hc e12
  | nil =>
    cases hp : eq.products with
    | nil =>
      apply hne
      rw [hr, hp]
      rfl
    | cons t ts =>
      have h1 := hres.2
      have h2 := hex.2
      rw [hp] at h1 h2
      have hm : ((0 : Nat), t) ∈ (t :: ts).enum := by
        rw [List.enum_cons]
        exact List.mem_cons_self _ _
      have e12 := Option.some.inj ((h1 _ hm).symm.trans (h2 _ hm))
      rw [one_mul] at e12
      have hc : 0 < t.coefficient :=
        hpos t (by rw [hp]; exact List.mem_append_right _ (List.mem_cons_self _ _))
      exact scaled_coeff_ne k t.coefficient hk hc e12

theorem unbalancedStrs_nil (st : BalanceState)
    (h : unbalancedTriples st = []) : unbalancedStrs st = [] := by
  unfold unbalancedStrs
  rw [h]
  rfl

/-- C3: when atoms and charge balance, the classifier reports EXACT exactly
when every resolved coefficient equals the reference one (and SCALED — the
simplest-ratio message — otherwise); entering the reference coefficients of
a well-formed equation yields no unbalanced element, equal charges and the
success outcome; scaling them all by an integer k>1 still balances but
yields the simplest-ratio outcome. -/
theorem claim_C3 (eq : ChemicalEquation) (hwf : wellFormed eq) :
    (∀ uc : UC, isExactMatch eq uc = true ↔ resolvesTo uc eq 1) ∧
    (∀ (uc : UC) (st : BalanceState) (topic : EquationTopic) (lang : Language),
      computeState eq uc = .ok st → unbalancedStrs st = [] →
      jneq st.chargeL st.chargeR = false →
      checkAnswer eq uc topic lang = .ok
        (if isExactMatch eq uc then ⟨.correct, ""⟩
         else ⟨.incorrect, simplestMsg lang.isZH⟩)) ∧
    (∀ (uc : UC) (topic : EquationTopic) (lang : Language),
      resolvesTo uc eq 1 →
      ∃ st, computeState eq uc = .ok st ∧ unbalancedTriples st = [] ∧
        st.chargeL = st.chargeR ∧ st.chargeL ≠ none ∧
        checkAnswer eq uc topic lang = .ok ⟨.correct, ""⟩) ∧
    (∀ (uc : UC) (k : Int) (topic : EquationTopic) (lang : Language),
      1 < k → resolvesTo uc eq k →
      ∃ st, computeState eq uc = .ok st ∧ unbalancedTriples st = [] ∧
        st.chargeL = st.chargeR ∧
        checkAnswer eq uc topic lang = .ok
          ⟨.incorrect, simplestMsg lang.isZH⟩) := by
  obtain ⟨hposparse, hnonempty, hbal⟩ := hwf
  have main : ∀ (uc : UC) (k : Int), resolvesTo uc eq k →
      ∃ st, computeState eq uc = .ok st ∧ unbalancedTriples st = [] ∧
        st.chargeL = some (k * refChargeSum eq.reactants) ∧
        st.chargeR = some (k * refChargeSum eq.products) := by
    intro uc k hres
    obtain ⟨st, hst, hcl, hcr, hgr, hgp, hval⟩ := computeState_ok eq uc
      (fun it => k * it.2.coefficient) (fun it => k * it.2.coefficient)
      hres.1 hres.2
      (fun it hit => (hposparse it.2
        (List.mem_append_left _ (snd_mem_of_mem_enum _ it hit))).2)
      (fun it hit => (hposparse it.2
        (List.mem_append_right _ (snd_mem_of_mem_enum _ it hit))).2)
    refine ⟨st, hst, ?_, ?_, ?_⟩
    · apply triples_nil st (fun p hpm => (hgr p hpm).1)
        (fun p hpm => (hgp p hpm).1)
      intro el hel
      rw [(hval el hel).1, (hval el hel).2, atomSumG_scale, atomSumG_scale]
      by_cases hmem : el ∈ elemsOf eq
      · rw [hbal.1 el hmem hel]
      · rw [refAtomSum_zero eq eq.reactants
            (fun t ht => List.mem_append_left _ ht) el hmem,
          refAtomSum_zero eq eq.products
            (fun t ht => List.mem_append_right _ ht) el hmem]
    · rw [hcl, chargeSumG_scale]
    · rw [hcr, chargeSumG_scale]
  refine ⟨fun uc => isExactMatch_iff eq uc, ?_, ?_, ?_⟩
  · intro uc st topic lang hst h1 h2
    rw [checkAnswer_eq eq uc topic lang st hst, if_pos h1,
      if_neg (by rw [h2]; exact Bool.false_ne_true)]
  · intro uc topic lang hres
    obtain ⟨st, hst, htr, hcl, hcr⟩ := main uc 1 hres
    have hceq : st.chargeL = st.chargeR := by
      rw [hcl, hcr, hbal.2]
    refine ⟨st, hst, htr, hceq, by rw [hcl]; simp, ?_⟩
    rw [checkAnswer_eq eq uc topic lang st hst,
      if_pos (unbalancedStrs_nil st htr)]
    rw [hceq, hcr]
    rw [if_neg (by rw [jneq_self]; exact Bool.false_ne_true),
      if_pos ((isExactMatch_iff eq uc).mpr hres)]
  · intro uc k topic lang hk hres
    obtain ⟨st, hst, htr, hcl, hcr⟩ := main uc k hres
    have hceq : st.chargeL = st.chargeR := by
      rw [hcl, hcr, hbal.2]
    refine ⟨st, hst, htr, hceq, ?_⟩
    rw [checkAnswer_eq eq uc topic lang st hst,
      if_pos (unbalancedStrs_nil st htr)]
    rw [hceq, hcr]
    rw [if_neg (by rw [jneq_self]; exact Bool.false_ne_true),
      if_neg (by
        rw [isExactMatch_false_of_scaled eq uc k hk hres
          (fun t ht => (hposparse t ht).1) hnonempty]
        exact Bool.false_ne_true)]

/-- Witness for C3: the reference coefficients of the water equation are
accepted as EXACT. -/
theorem claim_C3_witness :
    ∃ st, computeState waterEq waterUC = .ok st ∧
      unbalancedTriples st = [] ∧ st.chargeL = st.chargeR ∧
      st.chargeL ≠ none ∧
      checkAnswer waterEq waterUC .METALS .EN = .ok ⟨.correct, ""⟩ :=
  (claim_C3 waterEq
    ⟨by decide, by decide, by
      unfold refBalanced
      exact ⟨by decide, by decide⟩⟩).2.2.1 waterUC .METALS .EN
    (by unfold resolvesTo; exact ⟨by decide, by decide⟩)

/-! ### Hint tiers (C6, C7, C10) -/

theorem headChar_chargeHintMsg (st : BalanceState) (topic : EquationTopic)
    (b : Bool) :
    headChar (chargeHintMsg st topic b) = some (if b then '電' else 'C') := by
  cases b <;> rfl

theorem headChar_simplestMsg (b : Bool) :
    headChar (simplestMsg b) = some (if b then '原' else 'B') := by
  cases b <;> rfl

theorem headChar_atomHintMsg (st : BalanceState) (topic : EquationTopic)
    (b : Bool) :
    headChar (atomHintMsg st topic b) = some (if b then '未' else 'U') := by
  cases b <;> rfl

/-- C6: the charge-mismatch tier fires exactly when no element is
unbalanced and the two net charges are strictly unequal; its message is the
charge message (with an explicit `+` on positive charges) followed by the
topic note, which is empty for every topic other than the two redox ones. -/
theorem claim_C6 :
    (∀ (eq : ChemicalEquation) (uc : UC) (topic : EquationTopic)
        (lang : Language) (st : BalanceState), computeState eq uc = .ok st →
      (checkAnswer eq uc topic lang =
          .ok ⟨.incorrect, chargeHintMsg st topic lang.isZH⟩ ↔
        (unbalancedStrs st = [] ∧ jneq st.chargeL st.chargeR = true))) ∧
    (∀ n : Int,
      signedStr (some n) = if 0 < n then "+" ++ toString n else toString n) ∧
    (∀ (st : BalanceState) (topic : EquationTopic) (b : Bool),
      chargeHintMsg st topic b =
        chargeMsgCore b st.chargeL st.chargeR ++ chargeGuide topic b) ∧
    (∀ topic : EquationTopic, topic ≠ .REDOX_HALF → topic ≠ .REDOX_FULL →
      ∀ b, chargeGuide topic b = "") := by
  refine ⟨?_, ?_, ?_, ?_⟩
  · intro eq uc topic lang st hst
    rw [checkAnswer_eq eq uc topic lang st hst]
    constructor
    · intro h
      by_cases h1 : unbalancedStrs st = []
      · rw [if_pos h1] at h
        by_cases h2 : jneq st.chargeL st.chargeR = true
        · exact ⟨h1, h2⟩
        · rw [if_neg h2] at h
          exfalso
          by_cases h3 : isExactMatch eq uc = true
          · rw [if_pos h3] at h
            simp at h
          · rw [if_neg h3] at h
            have h' : simplestMsg lang.isZH = chargeHintMsg st topic lang.isZH := by
              simpa using h
            have hh := congrArg headChar h'
            rw [headChar_simplestMsg, headChar_chargeHintMsg] at hh
            cases lang <;> exact absurd hh (by decide)
      · rw [if_neg h1] at h
        exfalso
        have h' : atomHintMsg st topic lang.isZH = chargeHintMsg st topic lang.isZH := by
          simpa using h
        have hh := congrArg headChar h'
        rw [headChar_atomHintMsg, headChar_chargeHintMsg] at hh
        cases lang <;> exact absurd hh (by decide)
    · rintro ⟨h1, h2⟩
      rw [if_pos h1, if_pos h2]
  · intro n
    rfl
  · intro st topic b
    rfl
  · intro topic h1 h2 b
    cases topic with
    | REDOX_HALF => exact absurd rfl h1
    | REDOX_FULL => exact absurd rfl h2
    | METALS => rfl
    | ACIDS_BASES => rfl
    | FOSSIL_FUELS => rfl
    | EQUILIBRIUM => rfl

/-- Witness for C6 on the half equation with a doubled electron count. -/
theorem claim_C6_witness :
    checkAnswer halfEq halfUC2 .REDOX_HALF .EN =
        .ok ⟨.incorrect,
          chargeHintMsg ⟨[("Fe", some 1)], [("Fe", some 1)], some 2, some 1⟩
            .REDOX_HALF Language.EN.isZH⟩ ↔
      (unbalancedStrs ⟨[("Fe", some 1)], [("Fe", some 1)], some 2, some 1⟩ = [] ∧
        jneq (some 2) (some 1) = true) :=
  claim_C6.1 halfEq halfUC2 .REDOX_HALF .EN
    ⟨[("Fe", some 1)], [("Fe", some 1)], some 2, some 1⟩ rfl

theorem adviceFor_nonOH (topic : EquationTopic) (b : Bool)
    (els : List String) (el : String)
    (hfind : els.find? (fun x => !(x == "O") && !(x == "H")) = some el)
    (hne : el ≠ "") : adviceFor topic b els = nonOHAdvice topic b el := by
  unfold adviceFor
  rw [hfind]
  simp [hne]

theorem adviceFor_O (topic : EquationTopic) (b : Bool) (els : List String)
    (hfind : els.find? (fun x => !(x == "O") && !(x == "H")) = none)
    (hO : els.contains "O" = true) : adviceFor topic b els = oAdvice topic b := by
  have hmem : "O" ∈ els := by simpa using hO
  have hany : els.any (fun el => el == "O" || el == "H") = true :=
    List.any_eq_true.mpr ⟨"O", hmem, by simp⟩
  unfold adviceFor
  rw [hfind]
  cases topic with
  | REDOX_HALF => rw [if_pos hO]
  | REDOX_FULL => rw [if_pos hO]
  | METALS => rw [if_pos hany]
  | ACIDS_BASES => rw [if_pos hany]
  | FOSSIL_FUELS => rw [if_pos hany]
  | EQUILIBRIUM => rw [if_pos hany]

theorem adviceFor_H (topic : EquationTopic) (b : Bool) (els : List String)
    (hfind : els.find? (fun x => !(x == "O") && !(x == "H")) = none)
    (hO : els.contains "O" = false) (hH : els.contains "H" = true) :
    adviceFor topic b els = hAdvice topic b := by
  have hmem : "H" ∈ els := by simpa using hH
  have hany : els.any (fun el => el == "O" || el == "H") = true :=
    List.any_eq_true.mpr ⟨"H", hmem, by simp⟩
  have hnO : ¬(els.contains "O" = true) := by
    rw [hO]
    exact Bool.false_ne_true
  unfold adviceFor
  rw [hfind]
  cases topic with
  | REDOX_HALF => rw [if_neg hnO, if_pos hH]
  | REDOX_FULL => rw [if_neg hnO, if_pos hH]
  | METALS => rw [if_pos hany]; rfl
  | ACIDS_BASES => rw [if_pos hany]; rfl
  | FOSSIL_FUELS => rw [if_pos hany]; rfl
  | EQUILIBRIUM => rw [if_pos hany]; rfl

/-- C7: in the atom-mismatch tier, the advice of every topic names the
first unbalanced element that is neither O nor H when one exists; else it
targets O when O is unbalanced; else H — where for the non-redox topics the
O-case and H-case advice is the same generic balance-H-and-O-last note. -/
theorem claim_C7 :
    (∀ (topic : EquationTopic) (b : Bool) (els : List String) (el : String),
      els.find? (fun x => !(x == "O") && !(x == "H")) = some el → el ≠ "" →
      adviceFor topic b els = nonOHAdvice topic b el) ∧
    (∀ (topic : EquationTopic) (b : Bool) (els : List String),
      els.find? (fun x => !(x == "O") && !(x == "H")) = none →
      els.contains "O" = true → adviceFor topic b els = oAdvice topic b) ∧
    (∀ (topic : EquationTopic) (b : Bool) (els : List String),
      els.find? (fun x => !(x == "O") && !(x == "H")) = none →
      els.contains "O" = false → els.contains "H" = true →
      adviceFor topic b els = hAdvice topic b) ∧
    (∀ (topic : EquationTopic) (b : Bool),
      topic ≠ .REDOX_HALF → topic ≠ .REDOX_FULL →
      oAdvice topic b = hAdvice topic b) :=
  ⟨adviceFor_nonOH, adviceFor_O, adviceFor_H, by
    intro topic b h1 h2
    cases topic with
    | REDOX_HALF => exact absurd rfl h1
    | REDOX_FULL => exact absurd rfl h2
    | METALS => rfl
    | ACIDS_BASES => rfl
    | FOSSIL_FUELS => rfl
    | EQUILIBRIUM => rfl⟩

/-- Witness for C7 naming the first non-O/H element. -/
theorem claim_C7_witness :
    adviceFor .REDOX_HALF false ["O", "Fe"] = nonOHAdvice .REDOX_HALF false "Fe" :=
  claim_C7.1 .REDOX_HALF false ["O", "Fe"] "Fe" (by decide) (by decide)

theorem accumAtoms_keys (coeff : JsNum) (atoms : Frame) :
    ∀ (counts : List (String × JsNum)),
      (∀ p ∈ counts, p.1 ≠ "e" ∧ p.1 ≠ "") → (∀ p ∈ atoms, p.1 ≠ "") →
      ∀ p ∈ accumAtoms coeff atoms counts, p.1 ≠ "e" ∧ p.1 ≠ "" := by
  induction atoms with
  | nil => intro counts hc _ p hp; exact hc p hp
  | cons q tl ih =>
    intro counts hc hk p hp
    obtain ⟨a, b⟩ := q
    by_cases ha : a = "e"
    · have step : accumAtoms coeff ((a, b) :: tl) counts =
          accumAtoms coeff tl counts := by
        simp [accumAtoms, ha]
      rw [step] at hp
      exact ih counts hc (fun q hq => hk q (List.mem_cons_of_mem _ hq)) p hp
    · have step : accumAtoms coeff ((a, b) :: tl) counts =
          accumAtoms coeff tl
            (jsAccum counts a (jmul (some (b : Int)) coeff)) := by
        simp [accumAtoms, ha]
      rw [step] at hp
      refine ih _ ?_ (fun q hq => hk q (List.mem_cons_of_mem _ hq)) p hp
      intro q hq
      rcases mem_updateKey _ _ _ _ hq with rfl | hq
      · exact ⟨ha, hk (a, b) (List.mem_cons_self _ _)⟩
      · exact hc q hq

theorem sideStep_keys (uc : UC) (pre : String)
    (acc : List (String × JsNum) × JsNum) (it : Nat × EquationComponent)
    (res : List (String × JsNum) × JsNum)
    (hacc : ∀ p ∈ acc.1, p.1 ≠ "e" ∧ p.1 ≠ "")
    (h : sideStep uc pre acc it = .ok res) :
    ∀ p ∈ res.1, p.1 ≠ "e" ∧ p.1 ≠ "" := by
  unfold sideStep at h
  cases hp : parseFormula it.2.formula with
  | error e =>
    rw [hp] at h
    exact absurd h (by simp [Bind.bind, Except.bind])
  | ok o =>
    cases o with
    | none =>
      rw [hp] at h
      exact absurd h (by simp [Bind.bind, Except.bind])
    | some fr =>
      rw [hp] at h
      have hres : res = (accumAtoms (coeffNum uc (pre ++ "-" ++ toString it.1))
          fr acc.1, jadd acc.2 (jmul (coeffNum uc (pre ++ "-" ++ toString it.1))
            (some (getCharge it.2.formula)))) := by
        have := h
        simp [Bind.bind, Except.bind, pure, Except.pure] at this
        exact this.symm
      rw [hres]
      exact accumAtoms_keys _ fr acc.1 hacc (parse_keys _ _ hp)

theorem foldSide_keys (uc : UC) (pre : String) :
    ∀ (l : List (Nat × EquationComponent))
      (acc : List (String × JsNum) × JsNum)
      (res : List (String × JsNum) × JsNum),
      (∀ p ∈ acc.1, p.1 ≠ "e" ∧ p.1 ≠ "") →
      l.foldlM (sideStep uc pre) acc = .ok res →
      ∀ p ∈ res.1, p.1 ≠ "e" ∧ p.1 ≠ "" := by
  intro l
  induction l with
  | nil =>
    intro acc res hacc h
    cases h
    exact hacc
  | cons it l ih =>
    intro acc res hacc h
    rw [List.foldlM_cons] at h
    cases hstep : sideStep uc pre acc it with
    | error e =>
      rw [hstep] at h
      exact absurd h (by simp [Bind.bind, Except.bind])
    | ok acc1 =>
      rw [hstep] at h
      exact ih acc1 res (sideStep_keys uc pre acc it acc1 hacc hstep) h

theorem computeState_goodKeys (eq : ChemicalEquation) (uc : UC)
    (st : BalanceState) (h : computeState eq uc = .ok st) :
    (∀ p ∈ st.rCounts, p.1 ≠ "e" ∧ p.1 ≠ "") ∧
    (∀ p ∈ st.pCounts, p.1 ≠ "e" ∧ p.1 ≠ "") := by
  unfold computeState at h
  cases hr : sideFold uc "r" eq.reactants with
  | error e =>
    rw [hr] at h
    exact absurd h (by simp [Bind.bind, Except.bind])
  | ok r =>
    rw [hr] at h
    cases hp : sideFold uc "p" eq.products with
    | error e =>
      rw [hp] at h
      exact absurd h (by simp [Bind.bind, Except.bind])
    | ok p =>
      rw [hp] at h
      have hst : st = ⟨r.1, p.1, r.2, p.2⟩ := by
        have := h
        simp [Bind.bind, Except.bind, pure, Except.pure] at this
        exact this.symm
      subst hst
      exact ⟨foldSide_keys uc "r" eq.reactants.enum _ r
          (fun q hq => absurd hq (by simp)) hr,
        foldSide_keys uc "p" eq.products.enum _ p
          (fun q hq => absurd hq (by simp)) hp⟩

theorem unbEls_keys (st : BalanceState)
    (hgr : ∀ p ∈ st.rCounts, p.1 ≠ "e" ∧ p.1 ≠ "")
    (hgp : ∀ p ∈ st.pCounts, p.1 ≠ "e" ∧ p.1 ≠ "") :
    ∀ el ∈ unbalancedEls st, el ≠ "e" ∧ el ≠ "" := by
  intro el hel
  unfold unbalancedEls at hel
  obtain ⟨d, hd, rfl⟩ := List.mem_map.mp hel
  obtain ⟨x, hx, hgx⟩ := List.mem_filterMap.mp hd
  have hdx : d.1 = x := by
    by_cases hne : leftCount st x ≠ rightCount st x
    · rw [if_pos hne] at hgx
      cases hgx
      rfl
    · rw [if_neg hne] at hgx
      exact absurd hgx (by simp)
  rw [hdx]
  rcases List.mem_append.mp (mem_allElements st x hx) with hm | hm
  · obtain ⟨p, hpm, rfl⟩ := List.mem_map.mp hm
    exact hgr p hpm
  · obtain ⟨p, hpm, rfl⟩ := List.mem_map.mp hm
    exact hgp p hpm

theorem headChar_nonOHAdvice (topic : EquationTopic) (b : Bool) (el : String) :
    headChar (nonOHAdvice topic b el) = some '💡' := by
  cases topic <;> cases b <;> rfl

theorem nonOHAdvice_ne (topic : EquationTopic) (b : Bool) (el : String) :
    nonOHAdvice topic b el ≠ "" := by
  intro h
  have hh := headChar_nonOHAdvice topic b el
  rw [h] at hh
  exact absurd hh (by decide)

theorem oAdvice_ne (topic : EquationTopic) (b : Bool) : oAdvice topic b ≠ "" := by
  cases topic <;> cases b <;> decide

theorem hAdvice_ne (topic : EquationTopic) (b : Bool) : hAdvice topic b ≠ "" := by
  cases topic <;> cases b <;> decide

/-- C10 (implicit): whenever the unbalanced-element list is non-empty the
topic branch always yields non-empty advice (every element is non-O/H, O,
or H), so the odd/even-parity fallback never runs and the atom-mismatch
message always carries the topic advice. -/
theorem claim_C10 (eq : ChemicalEquation) (uc : UC) (topic : EquationTopic)
    (lang : Language) (st : BalanceState)
    (hst : computeState eq uc = .ok st) (hne : unbalancedEls st ≠ []) :
    adviceFor topic lang.isZH (unbalancedEls st) ≠ "" ∧
    atomAdvice topic lang.isZH (unbalancedEls st) (unbalancedTriples st) =
      adviceFor topic lang.isZH (unbalancedEls st) ∧
    checkAnswer eq uc topic lang =
      .ok ⟨.incorrect, atomHintMsg st topic lang.isZH⟩ := by
  have hkeys := computeState_goodKeys eq uc st hst
  have hels := unbEls_keys st hkeys.1 hkeys.2
  have hadv : adviceFor topic lang.isZH (unbalancedEls st) ≠ "" := by
    cases hfind : (unbalancedEls st).find?
        (fun x => !(x == "O") && !(x == "H")) with
    | some el =>
      have hmem := List.mem_of_find?_eq_some hfind
      rw [adviceFor_nonOH topic lang.isZH _ el hfind (hels el hmem).2]
      exact nonOHAdvice_ne topic lang.isZH el
    | none =>
      obtain ⟨el0, hel0⟩ := List.exists_mem_of_ne_nil _ hne
      have hfail := List.find?_eq_none.mp hfind el0 hel0
      have hOH : el0 = "O" ∨ el0 = "H" := by
        by_contra hcon
        push_neg at hcon
        exact hfail (by simp [hcon.1, hcon.2])
      by_cases hO : (unbalancedEls st).contains "O" = true
      · rw [adviceFor_O topic lang.isZH _ hfind hO]
        exact oAdvice_ne topic lang.isZH
      · have hO' : (unbalancedEls st).contains "O" = false :=
          Bool.eq_false_iff.mpr hO
        have hH : (unbalancedEls st).contains "H" = true := by
          rcases hOH with rfl | rfl
          · exact absurd (by simpa using hel0) hO
          · simpa using hel0
        rw [adviceFor_H topic lang.isZH _ hfind hO' hH]
        exact hAdvice_ne topic lang.isZH
  have htr : unbalancedTriples st ≠ [] := fun h =>
    hne (by unfold unbalancedEls; rw [h]; rfl)
  have hstr : unbalancedStrs st ≠ [] := by
    unfold unbalancedStrs
    intro h
    exact htr (List.map_eq_nil_iff.mp h)
  refine ⟨hadv, ?_, ?_⟩
  · unfold atomAdvice
    rw [if_neg hadv]
  · rw [checkAnswer_eq eq uc topic lang st hst, if_neg hstr]

/-- Witness for C10 on the unbalanced water attempt (all coefficients 1). -/
theorem claim_C10_witness :
    adviceFor .METALS Language.EN.isZH
        (unbalancedEls ⟨[("H", some 2), ("O", some 2)],
          [("H", some 2), ("O", some 1)], some 0, some 0⟩) ≠ "" ∧
    atomAdvice .METALS Language.EN.isZH
        (unbalancedEls ⟨[("H", some 2), ("O", some 2)],
          [("H", some 2), ("O", some 1)], some 0, some 0⟩)
        (unbalancedTriples ⟨[("H", some 2), ("O", some 2)],
          [("H", some 2), ("O", some 1)], some 0, some 0⟩) =
      adviceFor .METALS Language.EN.isZH
        (unbalancedEls ⟨[("H", some 2), ("O", some 2)],
          [("H", some 2), ("O", some 1)], some 0, some 0⟩) ∧
    checkAnswer waterEq (fun _ => none) .METALS .EN =
      .ok ⟨.incorrect,
        atomHintMsg ⟨[("H", some 2), ("O", some 2)],
          [("H", some 2), ("O", some 1)], some 0, some 0⟩ .METALS
          Language.EN.isZH⟩ :=
  claim_C10 waterEq (fun _ => none) .METALS .EN
    ⟨[("H", some 2), ("O", some 2)], [("H", some 2), ("O", some 1)],
      some 0, some 0⟩ rfl (by decide)

/-! ### Coefficient-edit boundary (C8) and evaluation purity (C9) -/

theorem char_one_le (c : Char) (hd : c.isDigit = true) (h0 : c ≠ '0') :
    '1' ≤ c := by
  rw [Char.le_def]
  simp only [Char.isDigit, Bool.and_eq_true, decide_eq_true_eq] at hd
  have hv : c.val.toBitVec.toNat ≠ 48 := by
    intro h
    apply h0
    apply Char.ext
    apply UInt32.eq_of_toBitVec_eq
    apply BitVec.eq_of_toNat_eq
    exact h
  have h48 : (48 : UInt32) ≤ c.val := hd.1
  rw [UInt32.le_def, BitVec.le_def] at h48 ⊢
  have e0 : ((48 : UInt32)).toBitVec.toNat = 48 := rfl
  have e1 : (('1' : Char).val).toBitVec.toNat = 49 := rfl
  rw [e0] at h48
  rw [e1]
  omega

theorem char_le_nine (c : Char) (hd : c.isDigit = true) : c ≤ '9' := by
  rw [Char.le_def]
  simp only [Char.isDigit, Bool.and_eq_true, decide_eq_true_eq] at hd
  exact UInt32.le_trans hd.2 (by decide)

theorem isPosIntStr_iff (s : String) :
    isPosIntStr s = true ↔
      (s.data ≠ [] ∧ (∀ c ∈ s.data, c.isDigit = true) ∧
        s.data.head? ≠ some '0') := by
  cases hd : s.data with
  | nil => rw [isPosIntStr, hd]; simp
  | cons c tl =>
    rw [isPosIntStr, hd]
    rw [Bool.and_eq_true, Bool.and_eq_true, decide_eq_true_eq,
      decide_eq_true_eq]
    constructor
    · rintro ⟨⟨h1, h9⟩, htl⟩
      refine ⟨by simp, ?_, ?_⟩
      · intro a ha
        rcases List.mem_cons.mp ha with rfl | ha
        · exact digit_of_range a h1 h9
        · exact List.all_eq_true.mp htl a ha
      · intro hh
        simp only [List.head?_cons, Option.some.injEq] at hh
        subst hh
        exact absurd h1 (by decide)
    · rintro ⟨_, hall, h0⟩
      have hcd : c.isDigit = true := hall c (List.mem_cons_self _ _)
      have hc0 : c ≠ '0' := fun hcc => h0 (by rw [hcc]; rfl)
      exact ⟨⟨char_one_le c hcd hc0, char_le_nine c hcd⟩,
        List.all_eq_true.mpr (fun a ha => hall a (List.mem_cons_of_mem _ ha))⟩

/-- C8: the edit boundary accepts exactly the empty string and
leading-zero-free digit strings; a rejected input leaves the state (and in
particular the stored coefficients) unchanged; an accepted input stores
exactly that string under its term id and nothing else; so the map only
ever holds empty or valid positive-integer strings. -/
theorem claim_C8 :
    (∀ v : String, (v = "" || isPosIntStr v) = true ↔
      (v = "" ∨ (v.data ≠ [] ∧ (∀ c ∈ v.data, c.isDigit = true) ∧
        v.data.head? ≠ some '0'))) ∧
    (∀ (id v : String) (st : EditorState),
      (v = "" || isPosIntStr v) = false →
      handleCoefficientChange id v st = st) ∧
    (∀ (id v : String) (st : EditorState),
      (v = "" || isPosIntStr v) = true →
      (handleCoefficientChange id v st).userCoefficients id = some v ∧
      (∀ k, k ≠ id → (handleCoefficientChange id v st).userCoefficients k =
        st.userCoefficients k)) ∧
    (∀ (id v : String) (st : EditorState),
      validUC st.userCoefficients →
      validUC (handleCoefficientChange id v st).userCoefficients) := by
  refine ⟨?_, ?_, ?_, ?_⟩
  · intro v
    rw [Bool.or_eq_true, decide_eq_true_eq]
    exact or_congr Iff.rfl (isPosIntStr_iff v)
  · intro id v st h
    unfold handleCoefficientChange
    rw [if_neg (by rw [h]; exact Bool.false_ne_true)]
  · intro id v st h
    unfold handleCoefficientChange
    rw [if_pos h]
    exact ⟨by simp, fun k hk => by simp [hk]⟩
  · intro id v st hv
    by_cases h : (v = "" || isPosIntStr v) = true
    · unfold handleCoefficientChange
      rw [if_pos h]
      intro k s hks
      simp only at hks
      by_cases hk : k = id
      · rw [if_pos hk] at hks
        cases hks
        have h' := h
        rw [Bool.or_eq_true] at h'
        rcases h' with hv' | hv'
        · exact Or.inl (decide_eq_true_eq.mp hv')
        · exact Or.inr hv'
      · rw [if_neg hk] at hks
        exact hv k s hks
    · unfold handleCoefficientChange
      rw [if_neg h]
      exact hv

/-- Witness for C8: "12" is stored verbatim, other keys untouched. -/
theorem claim_C8_witness :
    (handleCoefficientChange "r-0" "12"
      ⟨fun _ => none, .fbNone, ""⟩).userCoefficients "r-0" = some "12" ∧
    (∀ k, k ≠ "r-0" →
      (handleCoefficientChange "r-0" "12"
        ⟨fun _ => none, .fbNone, ""⟩).userCoefficients k =
      (⟨fun _ => none, .fbNone, ""⟩ : EditorState).userCoefficients k) :=
  claim_C8.2.2.1 "r-0" "12" ⟨fun _ => none, .fbNone, ""⟩ (by decide)

theorem applyCheck_fields (eq : ChemicalEquation) (uc : UC)
    (topic : EquationTopic) (lang : Language) (s r : SessionState)
    (h : applyCheck eq uc topic lang s = .ok r) :
    ∃ o, checkAnswer eq uc topic lang = .ok o ∧
      r.feedback = feedback3Of o.feedback ∧ r.hintMessage = o.hintMessage := by
  unfold applyCheck at h
  cases ho : checkAnswer eq uc topic lang with
  | error e =>
    rw [ho] at h
    exact absurd h (by simp [Bind.bind, Except.bind])
  | ok o =>
    rw [ho] at h
    refine ⟨o, rfl, ?_⟩
    obtain ⟨fb, msg⟩ := o
    cases fb with
    | correct =>
      have hr : (⟨s.score + 10, .fbCorrect, msg⟩ : SessionState) = r := by
        simpa [Bind.bind, Except.bind, pure, Except.pure] using h
      rw [← hr]
      exact ⟨rfl, rfl⟩
    | incorrect =>
      have hr : (⟨s.score, .fbIncorrect, msg⟩ : SessionState) = r := by
        simpa [Bind.bind, Except.bind, pure, Except.pure] using h
      rw [← hr]
      exact ⟨rfl, rfl⟩

/-- C9: balance evaluation is a pure function of the equation and the
coefficient map — recomputing the state is literally the same computation,
and the feedback and hint produced by a check do not depend on the prior
session state (score, feedback, hint), including on a state produced by an
earlier identical check. -/
theorem claim_C9 :
    (∀ (eq : ChemicalEquation) (uc : UC),
      computeState eq uc = computeState eq uc) ∧
    (∀ (eq : ChemicalEquation) (uc : UC) (topic : EquationTopic)
        (lang : Language) (s1 s2 r1 r2 : SessionState),
      applyCheck eq uc topic lang s1 = .ok r1 →
      applyCheck eq uc topic lang s2 = .ok r2 →
      r1.feedback = r2.feedback ∧ r1.hintMessage = r2.hintMessage) ∧
    (∀ (eq : ChemicalEquation) (uc : UC) (topic : EquationTopic)
        (lang : Language) (s r1 r2 : SessionState),
      applyCheck eq uc topic lang s = .ok r1 →
      applyCheck eq uc topic lang r1 = .ok r2 →
      r1.feedback = r2.feedback ∧ r1.hintMessage = r2.hintMessage) := by
  refine ⟨fun _ _ => rfl, ?_, ?_⟩
  · intro eq uc topic lang s1 s2 r1 r2 h1 h2
    obtain ⟨o1, ho1, hf1, hm1⟩ := applyCheck_fields eq uc topic lang s1 r1 h1
    obtain ⟨o2, ho2, hf2, hm2⟩ := applyCheck_fields eq uc topic lang s2 r2 h2
    have ho : o1 = o2 := by
      rw [ho1] at ho2
      exact Except.ok.inj ho2
    subst ho
    exact ⟨hf1.trans hf2.symm, hm1.trans hm2.symm⟩
  · intro eq uc topic lang s r1 r2 h1 h2
    obtain ⟨o1, ho1, hf1, hm1⟩ := applyCheck_fields eq uc topic lang s r1 h1
    obtain ⟨o2, ho2, hf2, hm2⟩ := applyCheck_fields eq uc topic lang r1 r2 h2
    have ho : o1 = o2 := by
      rw [ho1] at ho2
      exact Except.ok.inj ho2
    subst ho
    exact ⟨hf1.trans hf2.symm, hm1.trans hm2.symm⟩

/-- Witness for C9: two checks of the same correct answer from different
prior session states agree on feedback and hint. -/
theorem claim_C9_witness :
    (⟨10, Feedback3.fbCorrect, ""⟩ : SessionState).feedback =
        (⟨15, Feedback3.fbCorrect, ""⟩ : SessionState).feedback ∧
      (⟨10, Feedback3.fbCorrect, ""⟩ : SessionState).hintMessage =
        (⟨15, Feedback3.fbCorrect, ""⟩ : SessionState).hintMessage :=
  claim_C9.2.1 waterEq waterUC .METALS .EN ⟨0, .fbNone, ""⟩
    ⟨5, .fbIncorrect, "x"⟩ ⟨10, .fbCorrect, ""⟩ ⟨15, .fbCorrect, ""⟩ rfl rfl

end Chem
